import Mathlib

/-!
Verification of the tournament computation engine of the Max Open microsite:
the round-robin scheduler (`roundRobin`), the seeding group-split algorithms
(`splitSnake`, `splitGroups`), the standings calculator (`calcStandings`),
the playoff bracket projector (`bracket`) and the guarded import operation
(`onImport`).  Each definition is a direct translation of the corresponding
JavaScript function of the repository; machine numbers are modelled as `Int`
and JavaScript string-to-number coercion by `jsNumber`.
-/

namespace MaxOpen

/-- A scheduling entry: a competitor object as seen by `roundRobin`.
Real competitors carry `bye = false` (player objects in the app have no
`bye` property); the synthetic VOLNO placeholder carries `bye = true`. -/
structure Team where
  name : String
  bye : Bool
deriving Repr, DecidableEq

/-- The synthetic placeholder appended for odd-sized groups. -/
def byeTeam : Team := ⟨"VOLNO", true⟩

/-- One fixture round of a schedule, holding the 1-based round number and
its list of name pairs (the source's round and matches fields). -/
structure RRound where
  round : Nat
  matchPairs : List (String × String)
deriving Repr, DecidableEq

/-- The rotation step `t.splice(1, 0, t.pop())`: move the last element to
position 1, keeping the first element fixed. -/
def rrRotate (t : List Team) : List Team :=
  match t with
  | [] => []
  | x :: xs =>
    match xs.getLast? with
    | none => [x]
    | some l => x :: l :: xs.dropLast

/-- The pairs emitted for one round: entry `i` against entry `n - 1 - i`
for `i < n / 2`, dropping any pair that involves a bye entry. -/
def pairsOf (t : List Team) : List (String × String) :=
  (List.range (t.length / 2)).filterMap fun i =>
    match t[i]?, t[t.length - 1 - i]? with
    | some a, some b => if a.bye || b.bye then none else some (a.name, b.name)
    | _, _ => none

/-- The scheduling loop: emit `k` rounds, rotating between rounds. -/
def rrGo : Nat → Nat → List Team → List RRound
  | 0, _, _ => []
  | k + 1, r, t => ⟨r + 1, pairsOf t⟩ :: rrGo k (r + 1) (rrRotate t)

/-- The working list of the scheduler: the input teams, with the VOLNO
placeholder appended when the team count is odd. -/
def workList (teams : List Team) : List Team :=
  if teams.length % 2 = 1 then teams ++ [byeTeam] else teams

/-- Translation of `roundRobin(teams)`: append the VOLNO placeholder when
the team count is odd, then emit `n - 1` rounds of the circle method. -/
def roundRobin (teams : List Team) : List RRound :=
  let t := workList teams
  rrGo (t.length - 1) 0 t

/-- Rounds `n` up to an even number (the working-list size `M` of the
scheduler: `N + 1` when `N` is odd, otherwise `N`). -/
def evenUp (n : Nat) : Nat := if n % 2 = 1 then n + 1 else n

/-- Test whether an emitted pair is the unordered pair of names u, v. -/
def pairMatch (u v : String) (pr : String × String) : Bool :=
  (pr.1 == u && pr.2 == v) || (pr.1 == v && pr.2 == u)

/-- Test whether an emitted pair involves the name u on either side. -/
def containsName (u : String) (pr : String × String) : Bool :=
  pr.1 == u || pr.2 == u

/-- Verification helper: the value of `pred` on what slot `i` of the
round at rotation count `r` emits (false when the slot is dropped for a
bye), for a working list headed by `x` with tail `es`.  Slot `i` pairs
the entry at index `(i - 1 - r) mod |es|` of the tail (or the fixed head
when `i = 0`) with the entry at index `(|es| - 1 - i - r) mod |es|`. -/
def slotQ (x : Team) (es : List Team) (pred : String × String → Bool) (r i : Nat) : Bool :=
  match (if i = 0 then (some x : Option Team)
         else es[(i - 1 + r * (es.length - 1)) % es.length]?),
        es[(es.length - 1 - i + r * (es.length - 1)) % es.length]? with
  | some a, some b => if a.bye || b.bye then false else pred (a.name, b.name)
  | _, _ => false

/-- A roster entry: name and seeding rank. -/
structure Player where
  name : String
  rank : Int
deriving Repr, DecidableEq

/-- A stored match result record `{ a, b, round, ag, bg }`; the two score
fields are raw strings, empty meaning unset. -/
structure ResultRec where
  a : String
  b : String
  round : Nat
  ag : String
  bg : String
deriving Repr, DecidableEq

/-- A standings table row `{ name, rank, W, L, GF, GA, GD }`. -/
structure Row where
  name : String
  rank : Int
  W : Int
  L : Int
  GF : Int
  GA : Int
  GD : Int
deriving Repr, DecidableEq

/-- Value of a list of decimal digit characters. -/
def digitsVal (cs : List Char) : Nat :=
  cs.foldl (fun n c => n * 10 + (c.toNat - 48)) 0

/-- Models the JavaScript coercion `Number(s)` on score strings, restricted
to the integer-literal strings the score inputs produce: the empty string
coerces to 0, an optionally negated digit string to its value, and any
other string to NaN (`none`, which fails the `Number.isFinite` test). -/
def jsNumber (s : String) : Option Int :=
  match s.data with
  | [] => some 0
  | '-' :: rest =>
    if rest ≠ [] ∧ rest.all Char.isDigit then some (-(digitsVal rest : Int)) else none
  | cs => if cs.all Char.isDigit then some ((digitsVal cs : Int)) else none

/-- Lookup in the name-to-index map built by `Object.fromEntries`: with
duplicate keys the later entry wins, so this returns the last index whose
name matches (and `none`, i.e. `undefined`, when no entry matches). -/
def lastIdx : List String → String → Option Nat
  | [], _ => none
  | n :: ns, x =>
    match lastIdx ns x with
    | some k => some (k + 1)
    | none => if n = x then some 0 else none

/-- In-place update of the row at index `k` (a no-op past the end). -/
def modifyIdx (f : Row → Row) : Nat → List Row → List Row
  | _, [] => []
  | 0, r :: rs => f r :: rs
  | k + 1, r :: rs => r :: modifyIdx f k rs

/-- Add game scores to a row: `r.GF += g; r.GA += h`. -/
def addFor (g h : Int) (r : Row) : Row := { r with GF := r.GF + g, GA := r.GA + h }

/-- Increment a row's win counter. -/
def addWin (r : Row) : Row := { r with W := r.W + 1 }

/-- Increment a row's loss counter. -/
def addLoss (r : Row) : Row := { r with L := r.L + 1 }

/-- One iteration of the aggregation loop of `calcStandings`: look both
names up in the index, skip the record if either is `undefined`, then add
the scores and the win/loss when both score strings are non-empty and
coerce to finite numbers. -/
def applyResult (names : List String) (t : List Row) (m : ResultRec) : List Row :=
  match lastIdx names m.a, lastIdx names m.b with
  | some iA, some iB =>
    match jsNumber m.ag, jsNumber m.bg with
    | some agn, some bgn =>
      if m.ag ≠ "" ∧ m.bg ≠ "" then
        let t1 := modifyIdx (addFor agn bgn) iA t
        let t2 := modifyIdx (addFor bgn agn) iB t1
        if agn > bgn then
          modifyIdx addLoss iB (modifyIdx addWin iA t2)
        else if bgn > agn then
          modifyIdx addLoss iA (modifyIdx addWin iB t2)
        else t2
      else t
    | _, _ => t
  | _, _ => t

/-- JavaScript `x || y` on numbers: `x` is falsy exactly when it is 0. -/
def jsOrInt (x y : Int) : Int := if x = 0 then y else x

/-- The standings comparator
`(x, y) => y.W - x.W || y.GD - x.GD || y.GF - x.GF || x.rank - y.rank`. -/
def standingsCmp (x y : Row) : Int :=
  jsOrInt (y.W - x.W) (jsOrInt (y.GD - x.GD) (jsOrInt (y.GF - x.GF) (x.rank - y.rank)))

/-- The weak order induced by the comparator: x may come before y. -/
def rowLE (x y : Row) : Prop := standingsCmp x y ≤ 0

instance : DecidableRel rowLE := fun x y => by
  unfold rowLE
  infer_instance

/-- One stored entry processed by the aggregation loop: a falsy entry
(`none`, the `if (!m) return` guard) is skipped, any other is applied. -/
def resStep (names : List String) (t : List Row) (m? : Option ResultRec) : List Row :=
  match m? with
  | none => t
  | some m => applyResult names t m

/-- Translation of `calcStandings(players, resultsForGroup)`: build a zero
row per roster player, fold the result records over the table, recompute
`GD = GF - GA`, and sort with the comparator.  `Array.prototype.sort` is
required to be stable and to order according to the comparator, which
determines the output uniquely; the stable `insertionSort` computes
exactly that output. -/
def calcStandings (players : List Player) (results : List (Option ResultRec)) : List Row :=
  let names := players.map Player.name
  let table : List Row := players.map fun p => ⟨p.name, p.rank, 0, 0, 0, 0, 0⟩
  let agg := results.foldl (resStep names) table
  let withGD := agg.map fun r => { r with GD := r.GF - r.GA }
  List.insertionSort rowLE withGD

/-- Overwrite a player's rank with its 1-based position: `(p, idx + 1)`. -/
def upRank (ip : Nat × Player) : Player := { ip.2 with rank := (ip.1 : Int) + 1 }

/-- One step of the snake walk: `pair = floor(idx / 2)`; within an even
pair the even position goes to A and the odd to B, within an odd pair the
assignment is reversed. -/
def snakeStep (acc : List Player × List Player) (ip : Nat × Player) :
    List Player × List Player :=
  let idx := ip.1
  let q := upRank ip
  if (idx / 2) % 2 = 0 then
    if idx % 2 = 0 then (acc.1 ++ [q], acc.2) else (acc.1, acc.2 ++ [q])
  else
    if idx % 2 = 0 then (acc.1, acc.2 ++ [q]) else (acc.1 ++ [q], acc.2)

/-- Translation of `splitSnake(list)`: walk the ranking with its index,
overwrite each rank with index + 1, and assign pairs of positions
alternately A/B, B/A. -/
def splitSnake (list : List Player) : List Player × List Player :=
  list.enum.foldl snakeStep ([], [])

/-- One step of the split-half walk: positions below `ceil(n / 2)` go to
group A, the rest to group B. -/
def halfStep (half : Nat) (acc : List Player × List Player) (ip : Nat × Player) :
    List Player × List Player :=
  if ip.1 < half then (acc.1 ++ [upRank ip], acc.2) else (acc.1, acc.2 ++ [upRank ip])

/-- Translation of `splitGroups(list, algo)`: snake split for algorithm
"had", otherwise first `ceil(n / 2)` positions to group A, rest to B. -/
def splitGroups (list : List Player) (algo : String) : List Player × List Player :=
  if algo = "had" then splitSnake list
  else
    let half := (list.length + 1) / 2
    list.enum.foldl (halfStep half) ([], [])

/-- One playoff matchup with its label. -/
structure Matchup where
  label : String
  a : String
  b : String
deriving Repr, DecidableEq

/-- JavaScript `x || d` where `x` is an element of a string array that may
be `undefined` (index out of range): falsy for `undefined` and for the
empty string. -/
def jsOrStr (o : Option String) (d : String) : String :=
  match o with
  | none => d
  | some s => if s = "" then d else s

/-- Translation of the playoff bracket projection: take the top 4 names of
each standings table and form the four fixed crossover matchups, defaulting
each missing slot to its placeholder label. -/
def bracket (standingsA standingsB : List Row) : List Matchup :=
  let top4A := (standingsA.take 4).map Row.name
  let top4B := (standingsB.take 4).map Row.name
  [ ⟨"ČF1", jsOrStr top4A[0]? "1A", jsOrStr top4B[3]? "4B"⟩,
    ⟨"ČF2", jsOrStr top4A[1]? "2A", jsOrStr top4B[2]? "3B"⟩,
    ⟨"ČF3", jsOrStr top4B[0]? "1B", jsOrStr top4A[3]? "4A"⟩,
    ⟨"ČF4", jsOrStr top4B[1]? "2B", jsOrStr top4A[2]? "3A"⟩ ]

/-- A per-group result map (the JSON object under key A or B). -/
structure GroupResults where
  entries : List (String × ResultRec)
deriving Repr, DecidableEq

/-- The persisted result state: one result map per group key. -/
structure AppState where
  A : GroupResults
  B : GroupResults
deriving Repr, DecidableEq

/-- A successfully parsed imported object, with each group key either
present (mapping to a result map, a truthy value) or absent. -/
structure ImportedObj where
  A : Option GroupResults
  B : Option GroupResults
deriving Repr, DecidableEq

/-- Translation of `onImport`: a file whose text does not parse (`none`)
alerts and leaves the state alone; a parsed object replaces the state only
when `parsed.A && parsed.B`, otherwise it alerts and leaves the state
alone. -/
def onImport (parsed : Option ImportedObj) (st : AppState) : AppState :=
  match parsed with
  | none => st
  | some p =>
    match p.A, p.B with
    | some ga, some gb => ⟨ga, gb⟩
    | _, _ => st

/-- Coerced value of the first score field (0 when unset; only read under
`playable`, where the coercion succeeds). -/
def agN (m : ResultRec) : Int := (jsNumber m.ag).getD 0

/-- Coerced value of the second score field. -/
def bgN (m : ResultRec) : Int := (jsNumber m.bg).getD 0

/-- A result record is playable when both score fields are non-empty and
coerce to finite numbers — the test of the aggregation loop. -/
def playable (m : ResultRec) : Bool :=
  (jsNumber m.ag).isSome && (jsNumber m.bg).isSome && !(m.ag == "") && !(m.bg == "")

/-- A stored entry is counted by the aggregation exactly when it is truthy,
both names are in the roster index, and it is playable. -/
def countedBy (names : List String) : Option ResultRec → Bool
  | none => false
  | some m => (lastIdx names m.a).isSome && (lastIdx names m.b).isSome && playable m

/-- Games-for contribution of one counted result to the player named `nm`. -/
def dGF (nm : String) (m : ResultRec) : Int :=
  (if m.a = nm then agN m else 0) + (if m.b = nm then bgN m else 0)

/-- Games-against contribution of one counted result to `nm`. -/
def dGA (nm : String) (m : ResultRec) : Int :=
  (if m.a = nm then bgN m else 0) + (if m.b = nm then agN m else 0)

/-- Win contribution of one counted result to `nm`: 1 when `nm` is the
strictly higher scorer. -/
def dW (nm : String) (m : ResultRec) : Int :=
  (if m.a = nm ∧ agN m > bgN m then 1 else 0) + (if m.b = nm ∧ bgN m > agN m then 1 else 0)

/-- Loss contribution of one counted result to `nm`: 1 when `nm` is the
strictly lower scorer. -/
def dL (nm : String) (m : ResultRec) : Int :=
  (if m.b = nm ∧ agN m > bgN m then 1 else 0) + (if m.a = nm ∧ bgN m > agN m then 1 else 0)

/-- Sum over a result list of the contributions of its counted records. -/
def resTotal (names : List String) (nm : String) (d : String → ResultRec → Int)
    (results : List (Option ResultRec)) : Int :=
  (results.map fun m? =>
    if countedBy names m? then
      match m? with
      | some m => d nm m
      | none => 0
    else 0).sum

/-- The tie-break chain of the specification, as a strict order on rows:
more wins first, then larger game difference, then larger games-for, then
the better (smaller) seed rank. -/
def chainLT (x y : Row) : Prop :=
  y.W < x.W ∨ (x.W = y.W ∧ (y.GD < x.GD ∨ (x.GD = y.GD ∧
    (y.GF < x.GF ∨ (x.GF = y.GF ∧ x.rank < y.rank)))))

instance (x y : Row) : Decidable (chainLT x y) := by
  unfold chainLT
  exact inferInstance

/-- The snake policy's group-A test on a 0-based position: within an even
pair index the lower (even) position, within an odd pair index the higher
(odd) position. -/
def snakeToA (i : Nat) : Bool :=
  if (i / 2) % 2 = 0 then i % 2 = 0 else i % 2 = 1

/-- A three-competitor roster (odd size, exercising the bye path) used as a
concrete evaluation input. -/
def demoTeams : List Team := [⟨"x", false⟩, ⟨"y", false⟩, ⟨"z", false⟩]

/-- A four-competitor roster (even size) used as a concrete evaluation input. -/
def demoTeams4 : List Team := [⟨"p", false⟩, ⟨"q", false⟩, ⟨"s", false⟩, ⟨"t", false⟩]

section SeederProofs

lemma foldl_snakeStep (l : List (Nat × Player)) :
    ∀ accA accB : List Player,
      l.foldl snakeStep (accA, accB) =
        (accA ++ (l.filter fun ip => snakeToA ip.1).map upRank,
         accB ++ (l.filter fun ip => !snakeToA ip.1).map upRank) := by
  induction l with
  | nil => intro accA accB; simp
  | cons ip l ih =>
    intro accA accB
    simp only [List.foldl_cons, List.filter_cons]
    have hstep : snakeStep (accA, accB) ip =
        if snakeToA ip.1 then (accA ++ [upRank ip], accB)
        else (accA, accB ++ [upRank ip]) := by
      simp only [snakeStep, snakeToA]
      split_ifs <;> simp_all
    rw [hstep]
    by_cases h : snakeToA ip.1
    · simp only [h, if_pos, Bool.not_true, ih]
      simp
    · simp only [eq_false_of_ne_true h, Bool.not_false, if_neg h, ih]
      simp [h]

lemma foldl_halfStep (half : Nat) (l : List (Nat × Player)) :
    ∀ accA accB : List Player,
      l.foldl (halfStep half) (accA, accB) =
        (accA ++ (l.filter fun ip => ip.1 < half).map upRank,
         accB ++ (l.filter fun ip => !(ip.1 < half : Bool)).map upRank) := by
  induction l with
  | nil => intro accA accB; simp
  | cons ip l ih =>
    intro accA accB
    simp only [List.foldl_cons, List.filter_cons, halfStep]
    by_cases h : ip.1 < half
    · simp only [if_pos h, ih]
      simp [h]
    · simp only [if_neg h, ih]
      simp [h]

lemma snakeToA_iff (n : Nat) : snakeToA n = true ↔ (n % 4 = 0 ∨ n % 4 = 3) := by
  unfold snakeToA
  split_ifs with h
  · simp only [decide_eq_true_eq]
    omega
  · simp only [decide_eq_true_eq]
    omega

lemma countP_snakeToA (N : Nat) :
    (List.range N).countP snakeToA = (N + 3) / 4 + N / 4 := by
  induction N with
  | zero => simp
  | succ n ih =>
    rw [List.range_succ, List.countP_append, ih]
    have hsingle : List.countP snakeToA [n] = if snakeToA n = true then 1 else 0 := by
      simp [List.countP_cons]
    rw [hsingle]
    by_cases h : snakeToA n = true
    · rw [if_pos h]
      have h4 := (snakeToA_iff n).mp h
      omega
    · rw [if_neg h]
      have h4 : ¬(n % 4 = 0 ∨ n % 4 = 3) := fun hc => h ((snakeToA_iff n).mpr hc)
      omega

lemma countP_range_lt (N k : Nat) :
    (List.range N).countP (fun i => decide (i < k)) = min k N := by
  induction N with
  | zero => simp
  | succ n ih =>
    rw [List.range_succ, List.countP_append, ih]
    have hsingle : List.countP (fun i => decide (i < k)) [n] =
        if n < k then 1 else 0 := by
      simp [List.countP_cons]
    rw [hsingle]
    by_cases h : n < k
    · rw [if_pos h]
      omega
    · rw [if_neg h]
      omega

lemma parts_perm (list : List Player) (p : Nat → Bool) :
    ((list.enum.filter fun ip => p ip.1).map upRank ++
     (list.enum.filter fun ip => !p ip.1).map upRank).Perm (list.enum.map upRank) := by
  rw [← List.map_append]
  exact (List.filter_append_perm _ _).map upRank

lemma partA_length (list : List Player) (p : Nat → Bool) :
    ((list.enum.filter fun ip => p ip.1).map upRank).length =
      (List.range list.length).countP p := by
  rw [List.length_map, ← List.countP_eq_length_filter]
  have h1 : List.countP (fun ip => p ip.1) list.enum =
      List.countP p (list.enum.map Prod.fst) := by
    rw [List.countP_map]
    rfl
  rw [h1, List.enum_map_fst]

lemma parts_length (list : List Player) (p : Nat → Bool) :
    ((list.enum.filter fun ip => p ip.1).map upRank).length +
    ((list.enum.filter fun ip => !p ip.1).map upRank).length = list.length := by
  have h := (parts_perm list p).length_eq
  rw [List.length_append] at h
  simpa using h

lemma enum_upRank_names (list : List Player) :
    (list.enum.map upRank).map Player.name = list.map Player.name := by
  rw [List.map_map]
  have h : (Player.name ∘ upRank) = (Player.name ∘ Prod.snd : Nat × Player → String) := rfl
  rw [h, ← List.map_map, List.enum_map_snd]

lemma parts_names_disjoint (list : List Player) (p : Nat → Bool)
    (h : (list.map Player.name).Nodup) :
    ∀ nm ∈ ((list.enum.filter fun ip => p ip.1).map upRank).map Player.name,
      nm ∉ ((list.enum.filter fun ip => !p ip.1).map upRank).map Player.name := by
  have hperm := (parts_perm list p).map Player.name
  rw [List.map_append, enum_upRank_names] at hperm
  have hnodup : (((list.enum.filter fun ip => p ip.1).map upRank).map Player.name ++
      ((list.enum.filter fun ip => !p ip.1).map upRank).map Player.name).Nodup :=
    hperm.nodup_iff.mpr h
  rw [List.nodup_append] at hnodup
  exact fun nm hmem => hnodup.2.2 hmem

/-- Claim C5: splitSnake assigns competitors by consecutive pairs of
positions: within a pair at even 0-based pair index the lower position
goes to group A and the higher to group B, and within a pair at odd pair
index the assignment is reversed; this is the complete characterisation of
both groups for every input ranking, odd lengths included, with each
competitor's rank overwritten by its 1-based position. -/
theorem splitSnake_pair_assignment (list : List Player) :
    splitSnake list =
      ((list.enum.filter fun ip => snakeToA ip.1).map upRank,
       (list.enum.filter fun ip => !snakeToA ip.1).map upRank) := by
  unfold splitSnake
  rw [foldl_snakeStep]
  simp

/-- Claim C4: for every master ranking, both seeding policies (snake for
algorithm "had", split-half otherwise) produce groups that partition the
rank-updated input (sizes sum to N, the concatenation is a permutation of
the input with each rank overwritten by the 1-based position), the group
sizes differ by at most one, and under distinct names no competitor lands
in both groups. -/
theorem splitGroups_partition (list : List Player) (algo : String) :
    (splitGroups list algo).1.length + (splitGroups list algo).2.length = list.length ∧
    (splitGroups list algo).1.length ≤ (splitGroups list algo).2.length + 1 ∧
    (splitGroups list algo).2.length ≤ (splitGroups list algo).1.length + 1 ∧
    ((splitGroups list algo).1 ++ (splitGroups list algo).2).Perm (list.enum.map upRank) ∧
    ((list.map Player.name).Nodup →
      ∀ nm ∈ (splitGroups list algo).1.map Player.name,
        nm ∉ (splitGroups list algo).2.map Player.name) := by
  by_cases halgo : algo = "had"
  · have hdef : splitGroups list algo =
        ((list.enum.filter fun ip => snakeToA ip.1).map upRank,
         (list.enum.filter fun ip => !snakeToA ip.1).map upRank) := by
      rw [splitGroups, if_pos halgo]
      exact splitSnake_pair_assignment list
    have hdA : (splitGroups list algo).1 =
        (list.enum.filter fun ip => snakeToA ip.1).map upRank := by rw [hdef]
    have hdB : (splitGroups list algo).2 =
        (list.enum.filter fun ip => !snakeToA ip.1).map upRank := by rw [hdef]
    rw [hdA, hdB]
    have hlen := parts_length list snakeToA
    have hA := partA_length list snakeToA
    rw [countP_snakeToA] at hA
    exact ⟨hlen, by omega, by omega, parts_perm list snakeToA,
      parts_names_disjoint list snakeToA⟩
  · have hdef : splitGroups list algo =
        ((list.enum.filter fun ip => decide (ip.1 < (list.length + 1) / 2)).map upRank,
         (list.enum.filter fun ip => !decide (ip.1 < (list.length + 1) / 2)).map upRank) := by
      rw [splitGroups, if_neg halgo]
      rw [foldl_halfStep]
      simp
    have hdA : (splitGroups list algo).1 =
        (list.enum.filter fun ip => decide (ip.1 < (list.length + 1) / 2)).map upRank := by
      rw [hdef]
    have hdB : (splitGroups list algo).2 =
        (list.enum.filter fun ip => !decide (ip.1 < (list.length + 1) / 2)).map upRank := by
      rw [hdef]
    rw [hdA, hdB]
    have hlen := parts_length list (fun i => decide (i < (list.length + 1) / 2))
    have hA := partA_length list (fun i => decide (i < (list.length + 1) / 2))
    rw [countP_range_lt] at hA
    exact ⟨hlen, by omega, by omega,
      parts_perm list (fun i => decide (i < (list.length + 1) / 2)),
      parts_names_disjoint list (fun i => decide (i < (list.length + 1) / 2))⟩

/-- Witness for C4 at a concrete two-player ranking under the snake
policy: the partition facts hold and the first player is not in group B. -/
theorem splitGroups_partition_witness :
    (splitGroups [⟨"A", 1⟩, ⟨"B", 2⟩] "had").1.length +
      (splitGroups [⟨"A", 1⟩, ⟨"B", 2⟩] "had").2.length = 2 ∧
    ("A" : String) ∉ (splitGroups [⟨"A", 1⟩, ⟨"B", 2⟩] "had").2.map Player.name := by
  have h := splitGroups_partition [⟨"A", 1⟩, ⟨"B", 2⟩] "had"
  exact ⟨h.1, h.2.2.2.2 (by decide) "A" (by decide)⟩

end SeederProofs

section BracketImportProofs

lemma jsOrStr_take4 (t : List Row) (i : Nat) (hi : i < 4) (d : String)
    (h : ∀ r ∈ t, r.name ≠ "") :
    jsOrStr ((t.take 4).map Row.name)[i]? d = ((t.map Row.name)[i]?).getD d := by
  have htake : ((t.take 4).map Row.name)[i]? = (t.map Row.name)[i]? := by
    rw [List.map_take, List.getElem?_take, if_pos hi]
  rw [htake]
  match hx : (t.map Row.name)[i]? with
  | none => rfl
  | some s =>
    have hmem : s ∈ t.map Row.name := List.getElem?_mem hx
    obtain ⟨r, hr, hrs⟩ := List.mem_map.mp hmem
    have hne : s ≠ "" := hrs ▸ h r hr
    simp [jsOrStr, hne]

/-- Claim C7: for any pair of standings tables the bracket projector
produces exactly 4 matchups in the fixed crossover topology A1-B4, A2-B3,
B1-A4, B2-A3, using the name of the table row when the slot exists and the
corresponding placeholder label when the group has fewer rows (assuming
competitor names are non-empty strings). -/
theorem bracket_top4_crossover (ta tb : List Row)
    (ha : ∀ r ∈ ta, r.name ≠ "") (hb : ∀ r ∈ tb, r.name ≠ "") :
    (bracket ta tb).length = 4 ∧
    bracket ta tb =
      [⟨"ČF1", ((ta.map Row.name)[0]?).getD "1A", ((tb.map Row.name)[3]?).getD "4B"⟩,
       ⟨"ČF2", ((ta.map Row.name)[1]?).getD "2A", ((tb.map Row.name)[2]?).getD "3B"⟩,
       ⟨"ČF3", ((tb.map Row.name)[0]?).getD "1B", ((ta.map Row.name)[3]?).getD "4A"⟩,
       ⟨"ČF4", ((tb.map Row.name)[1]?).getD "2B", ((ta.map Row.name)[2]?).getD "3A"⟩] := by
  refine ⟨rfl, ?_⟩
  simp only [bracket]
  rw [jsOrStr_take4 ta 0 (by omega) _ ha, jsOrStr_take4 ta 1 (by omega) _ ha,
    jsOrStr_take4 ta 2 (by omega) _ ha, jsOrStr_take4 ta 3 (by omega) _ ha,
    jsOrStr_take4 tb 0 (by omega) _ hb, jsOrStr_take4 tb 1 (by omega) _ hb,
    jsOrStr_take4 tb 2 (by omega) _ hb, jsOrStr_take4 tb 3 (by omega) _ hb]

/-- Witness for C7: a group A table with only 2 finishers and an empty
group B table produce the literal placeholders for all missing slots. -/
theorem bracket_top4_crossover_witness :
    bracket [⟨"X", 1, 1, 0, 4, 2, 2⟩, ⟨"Y", 2, 0, 1, 2, 4, -2⟩] [] =
      [⟨"ČF1", "X", "4B"⟩, ⟨"ČF2", "Y", "3B"⟩,
       ⟨"ČF3", "1B", "4A"⟩, ⟨"ČF4", "2B", "3A"⟩] := by
  have h := bracket_top4_crossover
    [⟨"X", 1, 1, 0, 4, 2, 2⟩, ⟨"Y", 2, 0, 1, 2, 4, -2⟩] [] (by decide) (by decide)
  exact h.2.trans (by decide)

/-- Claim C9: the import operation replaces the result state with the
parsed object exactly when both group keys A and B are present; a parsed
object missing either key, or an unparsable file, leaves the existing
state unchanged. -/
theorem onImport_guard (p : ImportedObj) (st : AppState) :
    (∀ ga gb, p.A = some ga → p.B = some gb → onImport (some p) st = ⟨ga, gb⟩) ∧
    ((p.A = none ∨ p.B = none) → onImport (some p) st = st) ∧
    onImport none st = st := by
  refine ⟨?_, ?_, rfl⟩
  · intro ga gb hA hB
    simp [onImport, hA, hB]
  · intro h
    rcases hA : p.A with _ | ga
    · simp [onImport, hA]
    · rcases hB : p.B with _ | gb
      · simp [onImport, hA, hB]
      · rcases h with h | h
        · rw [hA] at h
          cases h
        · rw [hB] at h
          cases h

/-- Witness for C9: with one concrete group map, an import with both keys
replaces the state and an import missing key B is rejected unchanged. -/
theorem onImport_guard_witness :
    onImport (some ⟨some ⟨[]⟩, some ⟨[]⟩⟩) ⟨⟨[("k", ⟨"X", "Y", 1, "", ""⟩)]⟩, ⟨[]⟩⟩ =
      ⟨⟨[]⟩, ⟨[]⟩⟩ ∧
    onImport (some ⟨some ⟨[]⟩, none⟩) ⟨⟨[("k", ⟨"X", "Y", 1, "", ""⟩)]⟩, ⟨[]⟩⟩ =
      ⟨⟨[("k", ⟨"X", "Y", 1, "", ""⟩)]⟩, ⟨[]⟩⟩ := by
  constructor
  · exact (onImport_guard ⟨some ⟨[]⟩, some ⟨[]⟩⟩ _).1 ⟨[]⟩ ⟨[]⟩ rfl rfl
  · exact (onImport_guard ⟨some ⟨[]⟩, none⟩ _).2.1 (Or.inr rfl)

end BracketImportProofs

section StandingsOrderProofs

lemma chainLT_iff_cmp (x y : Row) : chainLT x y ↔ standingsCmp x y < 0 := by
  unfold chainLT standingsCmp jsOrInt
  split_ifs <;> omega

lemma rowLE_iff (x y : Row) :
    rowLE x y ↔ (chainLT x y ∨ (x.W = y.W ∧ x.GD = y.GD ∧ x.GF = y.GF ∧ x.rank = y.rank)) := by
  unfold rowLE chainLT standingsCmp jsOrInt
  split_ifs <;> omega

lemma chainLT_trans (x y z : Row) : chainLT x y → chainLT y z → chainLT x z := by
  unfold chainLT
  omega

lemma chainLT_asymm (x y : Row) : ¬(chainLT x y ∧ chainLT y x) := by
  unfold chainLT
  omega

lemma chainLT_total_of_rank (x y : Row) (h : x.rank ≠ y.rank) :
    chainLT x y ∨ chainLT y x := by
  unfold chainLT
  omega

instance : IsTotal Row rowLE where
  total x y := by
    rw [rowLE_iff, rowLE_iff]
    unfold chainLT
    omega

instance : IsTrans Row rowLE where
  trans x y z hxy hyz := by
    rw [rowLE_iff] at hxy hyz ⊢
    unfold chainLT at hxy hyz ⊢
    omega

lemma modifyIdx_map_rank (f : Row → Row) (hf : ∀ r, (f r).rank = r.rank) :
    ∀ (k : Nat) (l : List Row), (modifyIdx f k l).map Row.rank = l.map Row.rank := by
  intro k l
  induction l generalizing k with
  | nil => cases k <;> rfl
  | cons r rs ih =>
    cases k with
    | zero => simp [modifyIdx, hf]
    | succ k => simp [modifyIdx, ih]

lemma modifyIdx_map_name (f : Row → Row) (hf : ∀ r, (f r).name = r.name) :
    ∀ (k : Nat) (l : List Row), (modifyIdx f k l).map Row.name = l.map Row.name := by
  intro k l
  induction l generalizing k with
  | nil => cases k <;> rfl
  | cons r rs ih =>
    cases k with
    | zero => simp [modifyIdx, hf]
    | succ k => simp [modifyIdx, ih]

lemma applyResult_map_rank (names : List String) (t : List Row) (m : ResultRec) :
    (applyResult names t m).map Row.rank = t.map Row.rank := by
  unfold applyResult
  split
  case _ iA iB _ _ =>
    split
    case _ agn bgn _ _ =>
      split
      · split
        · rw [modifyIdx_map_rank addLoss (fun r => rfl), modifyIdx_map_rank addWin (fun r => rfl),
            modifyIdx_map_rank (addFor bgn agn) (fun r => rfl),
            modifyIdx_map_rank (addFor agn bgn) (fun r => rfl)]
        · split
          · rw [modifyIdx_map_rank addLoss (fun r => rfl), modifyIdx_map_rank addWin (fun r => rfl),
              modifyIdx_map_rank (addFor bgn agn) (fun r => rfl),
              modifyIdx_map_rank (addFor agn bgn) (fun r => rfl)]
          · rw [modifyIdx_map_rank (addFor bgn agn) (fun r => rfl),
              modifyIdx_map_rank (addFor agn bgn) (fun r => rfl)]
      · rfl
    all_goals rfl
  all_goals rfl

lemma applyResult_map_name (names : List String) (t : List Row) (m : ResultRec) :
    (applyResult names t m).map Row.name = t.map Row.name := by
  unfold applyResult
  split
  case _ iA iB _ _ =>
    split
    case _ agn bgn _ _ =>
      split
      · split
        · rw [modifyIdx_map_name addLoss (fun r => rfl), modifyIdx_map_name addWin (fun r => rfl),
            modifyIdx_map_name (addFor bgn agn) (fun r => rfl),
            modifyIdx_map_name (addFor agn bgn) (fun r => rfl)]
        · split
          · rw [modifyIdx_map_name addLoss (fun r => rfl), modifyIdx_map_name addWin (fun r => rfl),
              modifyIdx_map_name (addFor bgn agn) (fun r => rfl),
              modifyIdx_map_name (addFor agn bgn) (fun r => rfl)]
          · rw [modifyIdx_map_name (addFor bgn agn) (fun r => rfl),
              modifyIdx_map_name (addFor agn bgn) (fun r => rfl)]
      · rfl
    all_goals rfl
  all_goals rfl

lemma foldl_resStep_map_rank (names : List String) (results : List (Option ResultRec)) :
    ∀ t : List Row, (results.foldl (resStep names) t).map Row.rank = t.map Row.rank := by
  induction results with
  | nil => intro t; rfl
  | cons m? rest ih =>
    intro t
    rw [List.foldl_cons]
    rw [ih]
    cases m? with
    | none => rfl
    | some m => exact applyResult_map_rank names t m

lemma foldl_resStep_map_name (names : List String) (results : List (Option ResultRec)) :
    ∀ t : List Row, (results.foldl (resStep names) t).map Row.name = t.map Row.name := by
  induction results with
  | nil => intro t; rfl
  | cons m? rest ih =>
    intro t
    rw [List.foldl_cons]
    rw [ih]
    cases m? with
    | none => rfl
    | some m => exact applyResult_map_name names t m

lemma calcStandings_eq (players : List Player) (results : List (Option ResultRec)) :
    calcStandings players results =
      List.insertionSort rowLE
        ((results.foldl (resStep (players.map Player.name))
            (players.map fun p => ⟨p.name, p.rank, 0, 0, 0, 0, 0⟩)).map
          fun r => { r with GD := r.GF - r.GA }) := rfl

lemma calcStandings_map_rank (players : List Player) (results : List (Option ResultRec)) :
    ((calcStandings players results).map Row.rank).Perm (players.map Player.rank) := by
  rw [calcStandings_eq]
  have hperm := (List.perm_insertionSort rowLE
    ((results.foldl (resStep (players.map Player.name))
        (players.map fun p => ⟨p.name, p.rank, 0, 0, 0, 0, 0⟩)).map
      fun r => { r with GD := r.GF - r.GA })).map Row.rank
  have heq : (((results.foldl (resStep (players.map Player.name))
      (players.map fun p => ⟨p.name, p.rank, 0, 0, 0, 0, 0⟩)).map
        fun r => { r with GD := r.GF - r.GA }).map Row.rank) = players.map Player.rank := by
    rw [List.map_map]
    have h1 : (Row.rank ∘ fun r => { r with GD := r.GF - r.GA }) = Row.rank := rfl
    rw [h1, foldl_resStep_map_rank, List.map_map]
    rfl
  rw [heq] at hperm
  exact hperm

/-- Claim C3: the standings table is sorted by the strict tie-break chain
(wins desc, then game difference desc, then games-for desc, then seed rank
asc); the chain agrees with the code comparator, is a strict total order
once ranks are distinct, and orders two rows with equal wins and game
difference by the higher games-for regardless of their seed ranks. -/
theorem calcStandings_sort_order (players : List Player) (results : List (Option ResultRec))
    (hrk : (players.map Player.rank).Nodup) :
    (calcStandings players results).Pairwise chainLT ∧
    (∀ x y : Row, chainLT x y ↔ standingsCmp x y < 0) ∧
    (∀ x y : Row, x.rank ≠ y.rank → (chainLT x y ∨ chainLT y x) ∧ ¬(chainLT x y ∧ chainLT y x)) ∧
    (∀ x y z : Row, chainLT x y → chainLT y z → chainLT x z) ∧
    (∀ x y : Row, x.W = y.W → x.GD = y.GD → y.GF < x.GF → chainLT x y) := by
  refine ⟨?_, chainLT_iff_cmp,
    fun x y h => ⟨chainLT_total_of_rank x y h, chainLT_asymm x y⟩,
    chainLT_trans, ?_⟩
  · have hsorted : (calcStandings players results).Pairwise rowLE := by
      rw [calcStandings_eq]
      exact List.sorted_insertionSort rowLE _
    have hranks : ((calcStandings players results).map Row.rank).Nodup :=
      (calcStandings_map_rank players results).nodup_iff.mpr hrk
    have hpair : (calcStandings players results).Pairwise fun a b => a.rank ≠ b.rank :=
      List.pairwise_map.mp hranks
    refine (hsorted.and hpair).imp ?_
    intro a b hab
    rcases (rowLE_iff a b).mp hab.1 with h | h
    · exact h
    · exact absurd h.2.2.2 hab.2
  · intro x y hW hGD hGF
    unfold chainLT
    omega

/-- Witness for C3 at the two-player 4:2 example together with the
spec tie-break example shape: a row with equal wins and game difference
but higher games-for precedes one with a better seed rank. -/
theorem calcStandings_sort_order_witness :
    (calcStandings [⟨"X", 1⟩, ⟨"Y", 2⟩] [some ⟨"X", "Y", 1, "4", "2"⟩]).Pairwise chainLT ∧
    chainLT ⟨"a", 3, 1, 0, 9, 4, 5⟩ ⟨"b", 1, 1, 0, 7, 2, 5⟩ := by
  have h := calcStandings_sort_order [⟨"X", 1⟩, ⟨"Y", 2⟩]
    [some ⟨"X", "Y", 1, "4", "2"⟩] (by decide)
  exact ⟨h.1, h.2.2.2.2 ⟨"a", 3, 1, 0, 9, 4, 5⟩ ⟨"b", 1, 1, 0, 7, 2, 5⟩ rfl rfl (by decide)⟩

end StandingsOrderProofs

section StandingsAggregationProofs

lemma modifyIdx_getElem? (f : Row → Row) (k : Nat) (l : List Row) (j : Nat) :
    (modifyIdx f k l)[j]? = if j = k then (l[j]?).map f else l[j]? := by
  induction l generalizing k j with
  | nil => cases k <;> simp [modifyIdx]
  | cons r rs ih =>
    cases k with
    | zero =>
      cases j with
      | zero => simp [modifyIdx]
      | succ j => simp [modifyIdx]
    | succ k =>
      cases j with
      | zero => simp [modifyIdx]
      | succ j => simpa [modifyIdx] using ih k j

lemma lastIdx_none_iff (ns : List String) (x : String) :
    lastIdx ns x = none ↔ x ∉ ns := by
  induction ns with
  | nil => simp [lastIdx]
  | cons n ns ih =>
    rw [List.mem_cons]
    cases h : lastIdx ns x with
    | some k =>
      have hx : x ∈ ns := by
        by_contra hc
        rw [← ih, h] at hc
        cases hc
      simp only [lastIdx, h]
      simp [hx]
    | none =>
      have hx : x ∉ ns := ih.mp h
      simp only [lastIdx, h]
      by_cases hn : n = x
      · simp [hn]
      · rw [if_neg hn]
        constructor
        · intro _ hor
          rcases hor with he | he
          · exact hn he.symm
          · exact hx he
        · intro _
          rfl

lemma lastIdx_some_spec (ns : List String) (x : String) (k : Nat)
    (h : lastIdx ns x = some k) : k < ns.length ∧ ns[k]? = some x := by
  induction ns generalizing k with
  | nil => cases h
  | cons n ns ih =>
    simp only [lastIdx] at h
    cases hrec : lastIdx ns x with
    | some k0 =>
      rw [hrec] at h
      cases h
      obtain ⟨hk, hx⟩ := ih k0 hrec
      refine ⟨by simpa using Nat.succ_lt_succ hk, by simpa using hx⟩
    | none =>
      rw [hrec] at h
      by_cases hn : n = x
      · rw [if_pos hn] at h
        cases h
        exact ⟨Nat.succ_pos _, by simp [hn]⟩
      · rw [if_neg hn] at h
        cases h

lemma applyResult_getElem? (names : List String) (t : List Row) (m : ResultRec)
    (hname : t.map Row.name = names) (hnd : names.Nodup) (j : Nat) :
    (applyResult names t m)[j]? = (t[j]?).map fun r =>
      if countedBy names (some m) then
        ⟨r.name, r.rank, r.W + dW r.name m, r.L + dL r.name m,
         r.GF + dGF r.name m, r.GA + dGA r.name m, r.GD⟩
      else r := by
  cases hA : lastIdx names m.a with
  | none =>
    have hc : countedBy names (some m) = false := by simp [countedBy, hA]
    rw [hc]
    simp only [applyResult, hA]
    cases t[j]? <;> rfl
  | some iA =>
    cases hB : lastIdx names m.b with
    | none =>
      have hc : countedBy names (some m) = false := by simp [countedBy, hB]
      rw [hc]
      simp only [applyResult, hA, hB]
      cases t[j]? <;> rfl
    | some iB =>
      cases hag : jsNumber m.ag with
      | none =>
        have hc : countedBy names (some m) = false := by simp [countedBy, playable, hag]
        rw [hc]
        simp only [applyResult, hA, hB, hag]
        cases t[j]? <;> rfl
      | some agn =>
        cases hbg : jsNumber m.bg with
        | none =>
          have hc : countedBy names (some m) = false := by simp [countedBy, playable, hbg]
          rw [hc]
          simp only [applyResult, hA, hB, hag, hbg]
          cases t[j]? <;> rfl
        | some bgn =>
          by_cases hne : m.ag ≠ "" ∧ m.bg ≠ ""
          · have hc : countedBy names (some m) = true := by
              simp [countedBy, playable, hA, hB, hag, hbg, hne.1, hne.2]
            rw [hc]
            have hAspec := lastIdx_some_spec names m.a iA hA
            have hBspec := lastIdx_some_spec names m.b iB hB
            have hagN : agN m = agn := by simp [agN, hag]
            have hbgN : bgN m = bgn := by simp [bgN, hbg]
            have hnone : ∀ (f : Row → Row) (k : Nat) (l : List Row),
                l[j]? = none → (modifyIdx f k l)[j]? = none := by
              intro f k l hl
              rw [modifyIdx_getElem?, hl]
              split <;> rfl
            cases hjt : t[j]? with
            | none =>
              simp only [applyResult, hA, hB, hag, hbg, if_pos hne]
              split
              · exact hnone _ _ _ (hnone _ _ _ (hnone _ _ _ (hnone _ _ _ hjt)))
              · split
                · exact hnone _ _ _ (hnone _ _ _ (hnone _ _ _ (hnone _ _ _ hjt)))
                · exact hnone _ _ _ (hnone _ _ _ hjt)
            | some r =>
              have hrj : names[j]? = some r.name := by
                rw [← hname, List.getElem?_map, hjt]
                rfl
              have hjlen : j < names.length := by
                by_contra hge
                rw [List.getElem?_eq_none (by omega)] at hrj
                cases hrj
              have hja : (m.a = r.name) ↔ (j = iA) := by
                constructor
                · intro he
                  refine List.getElem?_inj hjlen hnd ?_
                  rw [hrj, hAspec.2, he]
                · intro he
                  have h1 : names[j]? = some m.a := by rw [he, hAspec.2]
                  rw [hrj] at h1
                  exact (Option.some.inj h1).symm
              have hjb : (m.b = r.name) ↔ (j = iB) := by
                constructor
                · intro he
                  refine List.getElem?_inj hjlen hnd ?_
                  rw [hrj, hBspec.2, he]
                · intro he
                  have h1 : names[j]? = some m.b := by rw [he, hBspec.2]
                  rw [hrj] at h1
                  exact (Option.some.inj h1).symm
              simp only [applyResult, hA, hB, hag, hbg, if_pos hne]
              rcases lt_trichotomy agn bgn with hcmp | hcmp | hcmp
              · have hc1 : ¬(agn > bgn) := by omega
                have hc2 : bgn > agn := hcmp
                rw [if_neg hc1, if_pos hc2]
                simp only [modifyIdx_getElem?, hjt]
                by_cases hA' : j = iA <;> by_cases hB' : j = iB
                · have hAB : iA = iB := hA'.symm.trans hB'
                  simp [hA', hB', hAB, hja, hjb, addFor, addWin, addLoss,
                    dW, dL, dGF, dGA, hagN, hbgN, hc1, hc2, Row.mk.injEq] <;> omega
                · have hAB : ¬(iA = iB) := fun h => hB' (hA'.trans h)
                  simp [hA', hB', hAB, hja, hjb, addFor, addWin, addLoss,
                    dW, dL, dGF, dGA, hagN, hbgN, hc1, hc2, Row.mk.injEq] <;> omega
                · have hAB : ¬(iA = iB) := fun h => hA' (hB'.trans h.symm)
                  have hBA : ¬(iB = iA) := fun h => hAB h.symm
                  simp [hA', hB', hAB, hBA, hja, hjb, addFor, addWin, addLoss,
                    dW, dL, dGF, dGA, hagN, hbgN, hc1, hc2, Row.mk.injEq] <;> omega
                · simp [hA', hB', hja, hjb, addFor, addWin, addLoss,
                    dW, dL, dGF, dGA, hagN, hbgN, hc1, hc2, Row.mk.injEq] <;> omega
              · have hc1 : ¬(agn > bgn) := by omega
                have hc2 : ¬(bgn > agn) := by omega
                rw [if_neg hc1, if_neg hc2]
                simp only [modifyIdx_getElem?, hjt]
                by_cases hA' : j = iA <;> by_cases hB' : j = iB
                · have hAB : iA = iB := hA'.symm.trans hB'
                  simp [hA', hB', hAB, hja, hjb, addFor,
                    dW, dL, dGF, dGA, hagN, hbgN, hc1, hc2, Row.mk.injEq] <;> omega
                · have hAB : ¬(iA = iB) := fun h => hB' (hA'.trans h)
                  simp [hA', hB', hAB, hja, hjb, addFor,
                    dW, dL, dGF, dGA, hagN, hbgN, hc1, hc2, Row.mk.injEq] <;> omega
                · have hAB : ¬(iA = iB) := fun h => hA' (hB'.trans h.symm)
                  have hBA : ¬(iB = iA) := fun h => hAB h.symm
                  simp [hA', hB', hAB, hBA, hja, hjb, addFor,
                    dW, dL, dGF, dGA, hagN, hbgN, hc1, hc2, Row.mk.injEq] <;> omega
                · simp [hA', hB', hja, hjb, addFor,
                    dW, dL, dGF, dGA, hagN, hbgN, hc1, hc2, Row.mk.injEq] <;> omega
              · have hc1 : agn > bgn := hcmp
                have hc2 : ¬(bgn > agn) := by omega
                rw [if_pos hc1]
                simp only [modifyIdx_getElem?, hjt]
                by_cases hA' : j = iA <;> by_cases hB' : j = iB
                · have hAB : iA = iB := hA'.symm.trans hB'
                  simp [hA', hB', hAB, hja, hjb, addFor, addWin, addLoss,
                    dW, dL, dGF, dGA, hagN, hbgN, hc1, hc2, Row.mk.injEq] <;> omega
                · have hAB : ¬(iA = iB) := fun h => hB' (hA'.trans h)
                  simp [hA', hB', hAB, hja, hjb, addFor, addWin, addLoss,
                    dW, dL, dGF, dGA, hagN, hbgN, hc1, hc2, Row.mk.injEq] <;> omega
                · have hAB : ¬(iA = iB) := fun h => hA' (hB'.trans h.symm)
                  have hBA : ¬(iB = iA) := fun h => hAB h.symm
                  simp [hA', hB', hAB, hBA, hja, hjb, addFor, addWin, addLoss,
                    dW, dL, dGF, dGA, hagN, hbgN, hc1, hc2, Row.mk.injEq] <;> omega
                · simp [hA', hB', hja, hjb, addFor, addWin, addLoss,
                    dW, dL, dGF, dGA, hagN, hbgN, hc1, hc2, Row.mk.injEq] <;> omega
          · have hne' := hne
            have hc : countedBy names (some m) = false := by
              rw [not_and_or] at hne'
              rcases hne' with h | h
              · have hq : m.ag = "" := not_not.mp h
                simp [countedBy, playable, hq]
              · have hq : m.bg = "" := not_not.mp h
                simp [countedBy, playable, hq]
            rw [hc]
            simp only [applyResult, hA, hB, hag, hbg, if_neg hne]
            cases t[j]? <;> rfl

lemma resTotal_cons (names : List String) (nm : String) (d : String → ResultRec → Int)
    (m? : Option ResultRec) (rest : List (Option ResultRec)) :
    resTotal names nm d (m? :: rest) =
      (if countedBy names m? then
        (match m? with
          | some m => d nm m
          | none => 0)
       else 0) + resTotal names nm d rest := by
  simp [resTotal]

lemma foldl_resStep_getElem? (names : List String) (hnd : names.Nodup)
    (results : List (Option ResultRec)) :
    ∀ (t : List Row), t.map Row.name = names → ∀ j : Nat,
      (results.foldl (resStep names) t)[j]? = (t[j]?).map fun r =>
        ⟨r.name, r.rank, r.W + resTotal names r.name dW results,
         r.L + resTotal names r.name dL results,
         r.GF + resTotal names r.name dGF results,
         r.GA + resTotal names r.name dGA results, r.GD⟩ := by
  induction results with
  | nil =>
    intro t hname j
    simp only [List.foldl_nil]
    cases t[j]? with
    | none => rfl
    | some r => simp [resTotal]
  | cons m? rest ih =>
    intro t hname j
    rw [List.foldl_cons]
    have hname' : (resStep names t m?).map Row.name = names := by
      cases m? with
      | none => exact hname
      | some m => exact (applyResult_map_name names t m).trans hname
    rw [ih (resStep names t m?) hname' j]
    cases m? with
    | none =>
      have hstep : resStep names t none = t := rfl
      rw [hstep]
      cases t[j]? with
      | none => rfl
      | some r =>
        have hcb : countedBy names none = false := rfl
        simp [resTotal_cons, hcb]
    | some m =>
      have hstep : resStep names t (some m) = applyResult names t m := rfl
      rw [hstep, applyResult_getElem? names t m hname hnd j]
      cases t[j]? with
      | none => rfl
      | some r =>
        simp only [Option.map_some']
        by_cases hcb : countedBy names (some m) = true
        · rw [if_pos hcb]
          simp only [resTotal_cons, hcb, if_pos]
          simp [Row.mk.injEq]
          refine ⟨?_, ?_, ?_, ?_⟩ <;> omega
        · rw [if_neg hcb]
          have hcb' : countedBy names (some m) = false := by
            cases h : countedBy names (some m)
            · rfl
            · exact absurd h hcb
          simp [resTotal_cons, hcb']

lemma filter_name_singleton :
    ∀ (l : List Row) (j : Nat) (r : Row), (l.map Row.name).Nodup → l[j]? = some r →
      l.filter (fun row => row.name == r.name) = [r] := by
  intro l
  induction l with
  | nil =>
    intro j r _ hj
    simp at hj
  | cons x xs ih =>
    intro j r hnd hj
    have hnd' : x.name ∉ xs.map Row.name ∧ (xs.map Row.name).Nodup := by
      rw [List.map_cons, List.nodup_cons] at hnd
      exact hnd
    cases j with
    | zero =>
      have hx : x = r := by simpa using hj
      subst hx
      rw [List.filter_cons, if_pos (by simp)]
      have hrest : xs.filter (fun row => row.name == x.name) = [] := by
        rw [List.filter_eq_nil_iff]
        intro a ha
        simp only [beq_iff_eq]
        intro he
        exact hnd'.1 (he ▸ List.mem_map_of_mem Row.name ha)
      rw [hrest]
    | succ j =>
      have hr : xs[j]? = some r := by simpa using hj
      have hmem : r ∈ xs := List.getElem?_mem hr
      have hxname : ¬((x.name == r.name) = true) := by
        simp only [beq_iff_eq]
        intro he
        exact hnd'.1 (he ▸ List.mem_map_of_mem Row.name hmem)
      rw [List.filter_cons, if_neg hxname]
      exact ih j r hnd'.2 hr

lemma calcStandings_map_name (players : List Player) (results : List (Option ResultRec)) :
    ((calcStandings players results).map Row.name).Perm (players.map Player.name) := by
  rw [calcStandings_eq]
  have hperm := (List.perm_insertionSort rowLE
    ((results.foldl (resStep (players.map Player.name))
        (players.map fun p => ⟨p.name, p.rank, 0, 0, 0, 0, 0⟩)).map
      fun r => { r with GD := r.GF - r.GA })).map Row.name
  have heq : (((results.foldl (resStep (players.map Player.name))
      (players.map fun p => ⟨p.name, p.rank, 0, 0, 0, 0, 0⟩)).map
        fun r => { r with GD := r.GF - r.GA }).map Row.name) = players.map Player.name := by
    rw [List.map_map]
    have h1 : (Row.name ∘ fun r : Row => { r with GD := r.GF - r.GA }) = Row.name := rfl
    rw [h1, foldl_resStep_map_name, List.map_map]
    rfl
  rw [heq] at hperm
  exact hperm

/-- Claim C2: with distinct roster names, calcStandings aggregates exactly
the counted results (both names in the roster, both score fields non-empty
and coercing to finite numbers): each roster player's unique output row
carries wins, losses, games-for and games-against summed from exactly
those results via the winner/loser deltas, every row satisfies
GD = GF - GA, and the two-player 4:2 example produces the exact rows with
the winner ranked first. -/
theorem calcStandings_aggregation (players : List Player)
    (results : List (Option ResultRec))
    (hnd : (players.map Player.name).Nodup) :
    (∀ row ∈ calcStandings players results, row.GD = row.GF - row.GA) ∧
    (∀ p ∈ players,
      (calcStandings players results).filter (fun row => row.name == p.name) =
        [⟨p.name, p.rank,
          resTotal (players.map Player.name) p.name dW results,
          resTotal (players.map Player.name) p.name dL results,
          resTotal (players.map Player.name) p.name dGF results,
          resTotal (players.map Player.name) p.name dGA results,
          resTotal (players.map Player.name) p.name dGF results -
            resTotal (players.map Player.name) p.name dGA results⟩]) ∧
    calcStandings [⟨"X", 1⟩, ⟨"Y", 2⟩] [some ⟨"X", "Y", 1, "4", "2"⟩] =
      [⟨"X", 1, 1, 0, 4, 2, 2⟩, ⟨"Y", 2, 0, 1, 2, 4, -2⟩] := by
  refine ⟨?_, ?_, by decide⟩
  · intro row hrow
    rw [calcStandings_eq] at hrow
    have hmem := (List.perm_insertionSort rowLE _).mem_iff.mp hrow
    obtain ⟨r, _, hr⟩ := List.mem_map.mp hmem
    rw [← hr]
  · intro p hp
    obtain ⟨j, hj⟩ := List.mem_iff_getElem?.mp hp
    set names := players.map Player.name with hnames
    set table : List Row := players.map fun q => ⟨q.name, q.rank, 0, 0, 0, 0, 0⟩ with htable
    have htn : table.map Row.name = names := by
      rw [htable, hnames, List.map_map]
      rfl
    have htj : table[j]? = some ⟨p.name, p.rank, 0, 0, 0, 0, 0⟩ := by
      rw [htable, List.getElem?_map, hj]
      rfl
    have haggj := foldl_resStep_getElem? names hnd results table htn j
    rw [htj] at haggj
    set agg := results.foldl (resStep names) table with hagg
    set withGD := agg.map fun r : Row => { r with GD := r.GF - r.GA } with hwgd
    have hwj : withGD[j]? = some
        ⟨p.name, p.rank,
          0 + resTotal names p.name dW results,
          0 + resTotal names p.name dL results,
          0 + resTotal names p.name dGF results,
          0 + resTotal names p.name dGA results,
          (0 + resTotal names p.name dGF results) -
            (0 + resTotal names p.name dGA results)⟩ := by
      rw [hwgd, List.getElem?_map, haggj]
      rfl
    have hwname : withGD.map Row.name = names := by
      rw [hwgd, List.map_map]
      have h1 : (Row.name ∘ fun r : Row => { r with GD := r.GF - r.GA }) = Row.name := rfl
      rw [h1, hagg, foldl_resStep_map_name, htn]
    have hfilter := filter_name_singleton withGD j _ (by rw [hwname]; exact hnd) hwj
    have hsorted : calcStandings players results = List.insertionSort rowLE withGD := by
      rw [calcStandings_eq, hwgd, hagg, htable, hnames]
    rw [hsorted]
    have hpermf := (List.perm_insertionSort rowLE withGD).filter
      (fun row => row.name == p.name)
    rw [show (fun row : Row => row.name == p.name) =
      (fun row : Row => row.name ==
        (Row.mk p.name p.rank
          (0 + resTotal names p.name dW results)
          (0 + resTotal names p.name dL results)
          (0 + resTotal names p.name dGF results)
          (0 + resTotal names p.name dGA results)
          ((0 + resTotal names p.name dGF results) -
            (0 + resTotal names p.name dGA results))).name) from rfl] at hpermf ⊢
    rw [hfilter] at hpermf
    rw [List.perm_singleton.mp hpermf]
    simp

/-- Witness for C2: the spec example itself: roster X (rank 1), Y (rank 2)
with the single result X vs Y = 4:2. -/
theorem calcStandings_aggregation_witness :
    (∀ row ∈ calcStandings [⟨"X", 1⟩, ⟨"Y", 2⟩] [some ⟨"X", "Y", 1, "4", "2"⟩],
      row.GD = row.GF - row.GA) ∧
    (calcStandings [⟨"X", 1⟩, ⟨"Y", 2⟩] [some ⟨"X", "Y", 1, "4", "2"⟩]).filter
        (fun row => row.name == "X") = [⟨"X", 1, 1, 0, 4, 2, 2⟩] := by
  have h := calcStandings_aggregation [⟨"X", 1⟩, ⟨"Y", 2⟩]
    [some ⟨"X", "Y", 1, "4", "2"⟩] (by decide)
  refine ⟨h.1, ?_⟩
  have h2 := h.2.1 ⟨"X", 1⟩ (by decide)
  exact h2.trans (by decide)

lemma applyResult_stale (names : List String) (t : List Row) (m : ResultRec)
    (h : lastIdx names m.a = none ∨ lastIdx names m.b = none) :
    applyResult names t m = t := by
  rcases h with h | h
  · unfold applyResult
    rw [h]
  · unfold applyResult
    rw [h]
    cases lastIdx names m.a <;> rfl

/-- Claim C6: a result record whose competitor names are not both present
in the current roster is silently skipped by calcStandings: inserting it
anywhere in the result list leaves the standings exactly unchanged (and in
particular causes no lookup failure, the computation being total). -/
theorem calcStandings_stale_skip (players : List Player)
    (res1 res2 : List (Option ResultRec)) (m : ResultRec)
    (hstale : ¬(m.a ∈ players.map Player.name ∧ m.b ∈ players.map Player.name)) :
    calcStandings players (res1 ++ some m :: res2) =
      calcStandings players (res1 ++ res2) := by
  have hidx : lastIdx (players.map Player.name) m.a = none ∨
      lastIdx (players.map Player.name) m.b = none := by
    rw [not_and_or] at hstale
    rcases hstale with h | h
    · exact Or.inl ((lastIdx_none_iff _ _).mpr h)
    · exact Or.inr ((lastIdx_none_iff _ _).mpr h)
  have hcore : ∀ T : List Row, resStep (players.map Player.name) T (some m) = T :=
    fun T => applyResult_stale _ T m hidx
  rw [calcStandings_eq, calcStandings_eq, List.foldl_append, List.foldl_append,
    List.foldl_cons, hcore]

/-- Witness for C6: a stale result with a recorded score, naming a
competitor absent from the roster, leaves the standings identical to the
empty result set. -/
theorem calcStandings_stale_skip_witness :
    calcStandings [⟨"P", 1⟩, ⟨"Q", 2⟩] [some ⟨"S", "Q", 1, "4", "0"⟩] =
      calcStandings [⟨"P", 1⟩, ⟨"Q", 2⟩] [] := by
  exact calcStandings_stale_skip [⟨"P", 1⟩, ⟨"Q", 2⟩] [] [] ⟨"S", "Q", 1, "4", "0"⟩
    (by decide)

end StandingsAggregationProofs

section RoundRobinProofs

lemma rrGo_eq_map : ∀ (k r₀ : Nat) (t : List Team),
    rrGo k r₀ t = (List.range k).map fun j => ⟨r₀ + j + 1, pairsOf (rrRotate^[j] t)⟩ := by
  intro k
  induction k with
  | zero => intro r₀ t; rfl
  | succ n ih =>
    intro r₀ t
    rw [List.range_succ_eq_map, List.map_cons, List.map_map]
    show (⟨r₀ + 1, pairsOf t⟩ : RRound) :: rrGo n (r₀ + 1) (rrRotate t) = _
    congr 1
    rw [ih (r₀ + 1) (rrRotate t)]
    refine List.map_congr_left fun j hj => ?_
    have h1 : r₀ + 1 + j + 1 = r₀ + (j + 1) + 1 := by omega
    have h2 : rrRotate^[j] (rrRotate t) = rrRotate^[j + 1] t :=
      (Function.iterate_succ_apply rrRotate j t).symm
    rw [Function.comp_apply, h1, h2]

lemma roundRobin_eq_map (teams : List Team) :
    roundRobin teams = (List.range ((workList teams).length - 1)).map
      fun j => ⟨j + 1, pairsOf (rrRotate^[j] (workList teams))⟩ := by
  show rrGo ((workList teams).length - 1) 0 (workList teams) = _
  rw [rrGo_eq_map]
  refine List.map_congr_left fun j hj => ?_
  rw [Nat.zero_add]

lemma rrRotate_cons_eq (x : Team) (es : List Team) (hes : es ≠ []) :
    rrRotate (x :: es) = x :: es.rotate (es.length - 1) := by
  have hlast : es.getLast? = some (es.getLast hes) := List.getLast?_eq_getLast es hes
  have hdecomp : es.dropLast ++ [es.getLast hes] = es := List.dropLast_append_getLast hes
  have hlen : es.dropLast.length = es.length - 1 := List.length_dropLast es
  have key : ∀ (ys : List Team) (z : Team),
      (ys ++ [z]).rotate ((ys ++ [z]).length - 1) = z :: ys := by
    intro ys z
    rw [List.rotate_eq_drop_append_take (by simp)]
    have h1 : (ys ++ [z]).length - 1 = ys.length := by simp
    rw [h1, List.drop_left, List.take_left]
    rfl
  have hrot : es.rotate (es.length - 1) = es.getLast hes :: es.dropLast := by
    conv_lhs => rw [← hdecomp]
    rw [key]
  rw [hrot]
  show (match es.getLast? with
    | none => [x]
    | some l => x :: l :: es.dropLast) = x :: es.getLast hes :: es.dropLast
  rw [hlast]

lemma iterate_rrRotate_cons (x : Team) (es : List Team) (hes : es ≠ []) (r : Nat) :
    rrRotate^[r] (x :: es) = x :: es.rotate (r * (es.length - 1)) := by
  induction r with
  | zero => simp
  | succ n ih =>
    rw [Function.iterate_succ_apply', ih]
    have hne : es.rotate (n * (es.length - 1)) ≠ [] := by
      intro hc
      have := congrArg List.length hc
      rw [List.length_rotate] at this
      exact hes (List.length_eq_zero.mp this)
    rw [rrRotate_cons_eq x _ hne, List.length_rotate, List.rotate_rotate]
    congr 2
    ring

lemma getElem?_rotate (es : List Team) (s q : Nat) (hq : q < es.length) :
    (es.rotate s)[q]? = es[(q + s) % es.length]? := by
  have h1 : q < (es.rotate s).length := by rwa [List.length_rotate]
  have h2 : (q + s) % es.length < es.length := Nat.mod_lt _ (by omega)
  rw [List.getElem?_eq_getElem h1, List.getElem?_eq_getElem h2]
  congr 1
  exact List.getElem_rotate es s q h1

lemma roundList_getElem?_zero (x : Team) (es : List Team) (s : Nat) :
    (x :: es.rotate s)[0]? = some x := by simp

lemma roundList_getElem?_succ (x : Team) (es : List Team) (s q : Nat) (hq : q < es.length) :
    (x :: es.rotate s)[q + 1]? = es[(q + s) % es.length]? := by
  rw [List.getElem?_cons_succ]
  exact getElem?_rotate es s q hq

lemma pairsOf_round (x : Team) (es : List Team) (hm : es.length % 2 = 1) (s : Nat) :
    pairsOf (x :: es.rotate s) =
      (List.range ((es.length + 1) / 2)).filterMap fun i =>
        match (if i = 0 then some x else es[(i - 1 + s) % es.length]?),
              es[(es.length - 1 - i + s) % es.length]? with
        | some a, some b => if a.bye || b.bye then none else some (a.name, b.name)
        | _, _ => none := by
  have hm1 : 1 ≤ es.length := by omega
  unfold pairsOf
  have hlen : (x :: es.rotate s).length = es.length + 1 := by simp
  rw [hlen]
  have hhalf : (es.length + 1) / 2 = (es.length + 1) / 2 := rfl
  refine List.filterMap_congr fun i hi => ?_
  rw [List.mem_range] at hi
  have hibd : i ≤ (es.length - 1) / 2 := by omega
  have hL : (x :: es.rotate s)[i]? =
      (if i = 0 then some x else es[(i - 1 + s) % es.length]?) := by
    cases i with
    | zero => simp
    | succ q =>
      rw [roundList_getElem?_succ x es s q (by omega)]
      simp
  have hR : (x :: es.rotate s)[es.length + 1 - 1 - i]? =
      es[(es.length - 1 - i + s) % es.length]? := by
    have h1 : es.length + 1 - 1 - i = (es.length - 1 - i) + 1 := by omega
    rw [h1, roundList_getElem?_succ x es s _ (by omega)]
  rw [hL, hR]

lemma countP_range_unique (C : Nat) (q : Nat → Bool) (i₀ : Nat) (hi : i₀ < C)
    (hq : q i₀ = true) (huniq : ∀ i < C, q i = true → i = i₀) :
    (List.range C).countP q = 1 := by
  induction C with
  | zero => omega
  | succ n ih =>
    rw [List.range_succ, List.countP_append]
    have hsingle : List.countP q [n] = if q n = true then 1 else 0 := by
      simp [List.countP_cons]
    by_cases hni : i₀ = n
    · have hzero : (List.range n).countP q = 0 := by
        rw [List.countP_eq_zero]
        intro a ha hqa
        rw [List.mem_range] at ha
        have := huniq a (by omega) hqa
        omega
      rw [hzero, hsingle, if_pos (hni ▸ hq)]
    · have h1 : (List.range n).countP q = 1 := by
        refine ih (by omega) fun i hilt hqi => huniq i (by omega) hqi
      have hqn : ¬(q n = true) := fun hc => hni ((huniq n (by omega) hc).symm)
      rw [h1, hsingle, if_neg hqn]

lemma countP_range_le_one (C : Nat) (q : Nat → Bool)
    (huniq : ∀ i < C, ∀ j < C, q i = true → q j = true → i = j) :
    (List.range C).countP q ≤ 1 := by
  induction C with
  | zero => simp
  | succ n ih =>
    rw [List.range_succ, List.countP_append]
    have hsingle : List.countP q [n] = if q n = true then 1 else 0 := by
      simp [List.countP_cons]
    by_cases hqn : q n = true
    · have hzero : (List.range n).countP q = 0 := by
        rw [List.countP_eq_zero]
        intro a ha hqa
        rw [List.mem_range] at ha
        have := huniq a (by omega) n (by omega) hqa hqn
        omega
      rw [hzero, hsingle, if_pos hqn]
    · have h1 : (List.range n).countP q ≤ 1 :=
        ih fun i hi j hj hqi hqj => huniq i (by omega) j (by omega) hqi hqj
      rw [hsingle, if_neg hqn]
      omega

lemma countP_range_all_but_one (C : Nat) (q : Nat → Bool) (i₀ : Nat) (hi : i₀ < C)
    (hq : q i₀ = false) (hrest : ∀ i < C, i ≠ i₀ → q i = true) :
    (List.range C).countP q = C - 1 := by
  induction C with
  | zero => omega
  | succ n ih =>
    rw [List.range_succ, List.countP_append]
    have hsingle : List.countP q [n] = if q n = true then 1 else 0 := by
      simp [List.countP_cons]
    by_cases hni : i₀ = n
    · have hall : (List.range n).countP q = n := by
        have : ∀ a ∈ List.range n, q a = true := by
          intro a ha
          rw [List.mem_range] at ha
          exact hrest a (by omega) (by omega)
        calc (List.range n).countP q = (List.range n).length :=
              List.countP_eq_length.mpr this
          _ = n := List.length_range n
      rw [hall, hsingle, if_neg (by rw [← hni]; simp [hq])]
      omega
    · have hilt : i₀ < n := by omega
      have h1 : (List.range n).countP q = n - 1 :=
        ih hilt fun i hiltn hne => hrest i (by omega) hne
      rw [h1, hsingle, if_pos (hrest n (by omega) (fun hc => hni hc.symm))]
      omega

lemma sum_map_range_unique (R : Nat) (f : Nat → Nat) (r₀ : Nat) (hr : r₀ < R)
    (hf0 : ∀ r < R, r ≠ r₀ → f r = 0) (hf1 : f r₀ = 1) :
    ((List.range R).map f).sum = 1 := by
  induction R with
  | zero => omega
  | succ n ih =>
    rw [List.range_succ, List.map_append, List.sum_append]
    by_cases hni : r₀ = n
    · have hzero : ((List.range n).map f).sum = 0 := by
        refine List.sum_eq_zero fun y hy => ?_
        obtain ⟨r, hrmem, hrf⟩ := List.mem_map.mp hy
        rw [List.mem_range] at hrmem
        rw [← hrf]
        exact hf0 r (by omega) (by omega)
      rw [hzero]
      simp [show f n = 1 from hni ▸ hf1]
    · have h1 : ((List.range n).map f).sum = 1 :=
        ih (by omega) fun r hrn hne => hf0 r (by omega) hne
      have hfn : f n = 0 := hf0 n (by omega) (fun hc => hni hc.symm)
      simp [h1, hfn]

lemma sum_map_range_const (R c : Nat) (f : Nat → Nat) (hf : ∀ r < R, f r = c) :
    ((List.range R).map f).sum = R * c := by
  induction R with
  | zero => simp
  | succ n ih =>
    rw [List.range_succ, List.map_append, List.sum_append,
      ih (fun r hr => hf r (by omega))]
    simp [hf n (by omega)]
    ring

lemma natmod_eq_of_zmod (m : Nat) [NeZero m] (a b : Nat) (hb : b < m)
    (h : (a : ZMod m) = (b : ZMod m)) : a % m = b := by
  have hv := congrArg ZMod.val h
  rwa [ZMod.val_natCast, ZMod.val_natCast, Nat.mod_eq_of_lt hb] at hv

lemma zmod_natCast_mod (m : Nat) (a : Nat) : ((a % m : Nat) : ZMod m) = (a : ZMod m) :=
  ZMod.natCast_mod a m

lemma two_mul_inv2 (m : Nat) (hm : m % 2 = 1) :
    (2 : ZMod m) * (((m + 1) / 2 : Nat) : ZMod m) = 1 := by
  have h1 : ((2 * ((m + 1) / 2) : Nat) : ZMod m) = ((m + 1 : Nat) : ZMod m) := by
    congr 1
    omega
  push_cast at h1
  rw [ZMod.natCast_self] at h1
  rw [h1, zero_add]

lemma two_cancel (m : Nat) (hm : m % 2 = 1) (a b : ZMod m) (h : 2 * a = 2 * b) :
    a = b := by
  have h1 := two_mul_inv2 m hm
  calc a = (2 * (((m + 1) / 2 : Nat) : ZMod m)) * a := by rw [h1, one_mul]
    _ = (((m + 1) / 2 : Nat) : ZMod m) * (2 * a) := by ring
    _ = (((m + 1) / 2 : Nat) : ZMod m) * (2 * b) := by rw [h]
    _ = (2 * (((m + 1) / 2 : Nat) : ZMod m)) * b := by ring
    _ = b := by rw [h1, one_mul]

lemma cast_sub_one (m : Nat) (hm1 : 1 ≤ m) : ((m - 1 : Nat) : ZMod m) = -1 := by
  have h2 : (((m - 1) + 1 : Nat) : ZMod m) = ((m : Nat) : ZMod m) := by
    congr 1
    omega
  rw [Nat.cast_add, Nat.cast_one, ZMod.natCast_self] at h2
  exact eq_neg_of_add_eq_zero_left h2

lemma idx_cast (m q r : Nat) (hm1 : 1 ≤ m) :
    (((q + r * (m - 1)) % m : Nat) : ZMod m) = (q : ZMod m) - r := by
  rw [zmod_natCast_mod, Nat.cast_add, Nat.cast_mul, cast_sub_one m hm1]
  ring

lemma idx_eq_iff (m q r α : Nat) (hα : α < m) (hm1 : 1 ≤ m) :
    ((q + r * (m - 1)) % m = α) ↔ ((q : ZMod m) - r = (α : ZMod m)) := by
  haveI : NeZero m := ⟨by omega⟩
  constructor
  · intro h
    rw [← idx_cast m q r hm1, h]
  · intro h
    refine natmod_eq_of_zmod m _ _ hα ?_
    rw [← zmod_natCast_mod, idx_cast m q r hm1]
    exact h

lemma round_countP (x : Team) (es : List Team) (hm : es.length % 2 = 1)
    (pred : String × String → Bool) (r : Nat) :
    (pairsOf (rrRotate^[r] (x :: es))).countP pred =
      (List.range ((es.length + 1) / 2)).countP (slotQ x es pred r) := by
  have hes : es ≠ [] := by
    intro hc
    rw [hc] at hm
    simp at hm
  rw [iterate_rrRotate_cons x es hes r, pairsOf_round x es hm, List.countP_filterMap]
  refine List.countP_congr fun i hi => ?_
  rw [List.mem_range] at hi
  have hm1 : 1 ≤ es.length := by omega
  have hmlt2 : (es.length - 1 - i + r * (es.length - 1)) % es.length < es.length :=
    Nat.mod_lt _ (by omega)
  obtain ⟨b, hb⟩ : ∃ b, es[(es.length - 1 - i + r * (es.length - 1)) % es.length]? = some b :=
    ⟨_, List.getElem?_eq_getElem hmlt2⟩
  by_cases hi0 : i = 0
  · subst hi0
    simp only [slotQ, if_pos rfl, hb]
    by_cases hbye : x.bye || b.bye
    · simp [hbye]
    · simp [hbye]
  · have hmlt : (i - 1 + r * (es.length - 1)) % es.length < es.length :=
      Nat.mod_lt _ (by omega)
    obtain ⟨a, ha⟩ : ∃ a, es[(i - 1 + r * (es.length - 1)) % es.length]? = some a :=
      ⟨_, List.getElem?_eq_getElem hmlt⟩
    simp only [slotQ, if_neg hi0, ha, hb]
    by_cases hbye : a.bye || b.bye
    · simp [hbye]
    · simp [hbye]

lemma mem_pairsOf_iff (x : Team) (es : List Team) (hm : es.length % 2 = 1)
    (r : Nat) (pr : String × String) :
    pr ∈ pairsOf (rrRotate^[r] (x :: es)) ↔
      ∃ i < (es.length + 1) / 2, ∃ a b : Team,
        (if i = 0 then (some x : Option Team)
         else es[(i - 1 + r * (es.length - 1)) % es.length]?) = some a ∧
        es[(es.length - 1 - i + r * (es.length - 1)) % es.length]? = some b ∧
        a.bye = false ∧ b.bye = false ∧ pr = (a.name, b.name) := by
  have hes : es ≠ [] := by
    intro hc
    rw [hc] at hm
    simp at hm
  rw [iterate_rrRotate_cons x es hes r, pairsOf_round x es hm, List.mem_filterMap]
  constructor
  · rintro ⟨i, hi, hg⟩
    rw [List.mem_range] at hi
    refine ⟨i, hi, ?_⟩
    rcases hL : (if i = 0 then (some x : Option Team)
        else es[(i - 1 + r * (es.length - 1)) % es.length]?) with _ | a
    · rw [hL] at hg
      cases hg
    · rcases hR : es[(es.length - 1 - i + r * (es.length - 1)) % es.length]? with _ | b
      · rw [hL, hR] at hg
        cases hg
      · rw [hL, hR] at hg
        have hg' : (if a.bye || b.bye then none else some (a.name, b.name)) = some pr := hg
        by_cases hbye : (a.bye || b.bye) = true
        · rw [if_pos hbye] at hg'
          cases hg'
        · rw [if_neg hbye] at hg'
          refine ⟨a, b, rfl, rfl, ?_, ?_, (Option.some.inj hg').symm⟩
          · cases hab : a.bye
            · rfl
            · rw [hab] at hbye
              simp at hbye
          · cases hbb : b.bye
            · rfl
            · rw [hbb] at hbye
              simp at hbye
  · rintro ⟨i, hi, a, b, ha, hb, hna, hnb, hpr⟩
    refine ⟨i, List.mem_range.mpr hi, ?_⟩
    rw [ha, hb]
    show (if a.bye || b.bye then none else some (a.name, b.name)) = some pr
    rw [hna, hnb]
    simp [hpr]

section SlotChar

variable (x : Team) (es : List Team) (nreal : Nat)

lemma slotQ_zero (pred : String × String → Bool) (r : Nat) (b : Team)
    (hb : es[(es.length - 1 - 0 + r * (es.length - 1)) % es.length]? = some b) :
    slotQ x es pred r 0 = if x.bye || b.bye then false else pred (x.name, b.name) := by
  unfold slotQ
  rw [hb]
  rfl

lemma slotQ_succ (pred : String × String → Bool) (r i : Nat) (hi0 : i ≠ 0) (a b : Team)
    (ha : es[(i - 1 + r * (es.length - 1)) % es.length]? = some a)
    (hb : es[(es.length - 1 - i + r * (es.length - 1)) % es.length]? = some b) :
    slotQ x es pred r i = if a.bye || b.bye then false else pred (a.name, b.name) := by
  unfold slotQ
  rw [if_neg hi0, ha, hb]

lemma es_real_iff
    (hbye : ∀ α, nreal ≤ α → α < es.length → es[α]? = some byeTeam)
    (hreales : ∀ α < nreal, ∀ e : Team, es[α]? = some e → e.bye = false)
    (α : Nat) (hα : α < es.length) (e : Team) (he : es[α]? = some e) :
    e.bye = false ↔ α < nreal := by
  constructor
  · intro hreal
    by_contra hge
    have hb := hbye α (by omega) hα
    rw [he] at hb
    have he2 : e = byeTeam := Option.some.inj hb
    rw [he2] at hreal
    cases hreal
  · intro hlt
    exact hreales α hlt e he

lemma slotQ_pair_char_x
    (hm : es.length % 2 = 1)
    (hxreal : x.bye = false)
    (hbye : ∀ α, nreal ≤ α → α < es.length → es[α]? = some byeTeam)
    (hreales : ∀ α < nreal, ∀ e : Team, es[α]? = some e → e.bye = false)
    (hinj : ∀ α < nreal, ∀ β < nreal, ∀ e f : Team, es[α]? = some e → es[β]? = some f →
      e.name = f.name → α = β)
    (hxname : ∀ α < nreal, ∀ e : Team, es[α]? = some e → e.name ≠ x.name)
    (β : Nat) (hβ : β < nreal) (e : Team) (he : es[β]? = some e)
    (r i : Nat) (hi : i < (es.length + 1) / 2) :
    slotQ x es (pairMatch x.name e.name) r i = true ↔
      (i = 0 ∧ (es.length - 1 + r * (es.length - 1)) % es.length = β) := by
  have hβm : β < es.length := by
    by_contra hc
    rw [List.getElem?_eq_none (by omega)] at he
    cases he
  have hm1 : 1 ≤ es.length := by omega
  have hxn := hxname β hβ e he
  by_cases hi0 : i = 0
  · subst hi0
    have hidx : es.length - 1 - 0 + r * (es.length - 1) =
        es.length - 1 + r * (es.length - 1) := by omega
    have hmlt : (es.length - 1 + r * (es.length - 1)) % es.length < es.length :=
      Nat.mod_lt _ (by omega)
    obtain ⟨b, hb⟩ : ∃ b, es[(es.length - 1 + r * (es.length - 1)) % es.length]? = some b :=
      ⟨_, List.getElem?_eq_getElem hmlt⟩
    rw [slotQ_zero x es _ r b (by rw [← hidx] at hb; exact hb), hxreal]
    constructor
    · intro hq
      by_cases hbb : b.bye = true
      · rw [hbb] at hq
        simp at hq
      · have hbreal : b.bye = false := by
          cases hval : b.bye
          · rfl
          · exact absurd hval hbb
        rw [hbreal] at hq
        simp only [Bool.false_or, if_neg] at hq
        have hq2 : pairMatch x.name e.name (x.name, b.name) = true := by
          simpa using hq
        have hblt : (es.length - 1 + r * (es.length - 1)) % es.length < nreal :=
          (es_real_iff es nreal hbye hreales _ hmlt b hb).mp hbreal
        simp only [pairMatch, Bool.or_eq_true, Bool.and_eq_true, beq_iff_eq] at hq2
        rcases hq2 with ⟨_, hbe⟩ | ⟨hxe, _⟩
        · exact ⟨rfl, hinj _ hblt β hβ b e hb he hbe⟩
        · exact absurd hxe.symm hxn
    · rintro ⟨_, hidxβ⟩
      have hbe : b = e := by
        rw [hidxβ, he] at hb
        exact (Option.some.inj hb).symm
      have hbreal : b.bye = false := hbe ▸ hreales β hβ e he
      rw [hbreal]
      simp [pairMatch, hbe]
  · have hrhs : ¬(i = 0 ∧ (es.length - 1 + r * (es.length - 1)) % es.length = β) :=
      fun hc => hi0 hc.1
    simp only [hrhs, iff_false]
    intro hq
    have hmltL : (i - 1 + r * (es.length - 1)) % es.length < es.length :=
      Nat.mod_lt _ (by omega)
    have hmltR : (es.length - 1 - i + r * (es.length - 1)) % es.length < es.length :=
      Nat.mod_lt _ (by omega)
    obtain ⟨a, ha⟩ : ∃ a, es[(i - 1 + r * (es.length - 1)) % es.length]? = some a :=
      ⟨_, List.getElem?_eq_getElem hmltL⟩
    obtain ⟨b, hb⟩ : ∃ b, es[(es.length - 1 - i + r * (es.length - 1)) % es.length]? = some b :=
      ⟨_, List.getElem?_eq_getElem hmltR⟩
    rw [slotQ_succ x es _ r i hi0 a b ha hb] at hq
    by_cases hbye2 : (a.bye || b.bye) = true
    · rw [if_pos hbye2] at hq
      cases hq
    · rw [if_neg hbye2] at hq
      have hareal : a.bye = false := by
        cases hval : a.bye
        · rfl
        · rw [hval] at hbye2
          simp at hbye2
      have hbreal : b.bye = false := by
        cases hval : b.bye
        · rfl
        · rw [hval] at hbye2
          simp at hbye2
      have halt := (es_real_iff es nreal hbye hreales _ hmltL a ha).mp hareal
      have hblt := (es_real_iff es nreal hbye hreales _ hmltR b hb).mp hbreal
      simp only [pairMatch, Bool.or_eq_true, Bool.and_eq_true, beq_iff_eq] at hq
      rcases hq with ⟨hax, _⟩ | ⟨_, hbx⟩
      · exact hxname _ halt a ha hax
      · exact hxname _ hblt b hb hbx

lemma slotQ_pair_char_es
    (hm : es.length % 2 = 1)
    (hxreal : x.bye = false)
    (hbye : ∀ α, nreal ≤ α → α < es.length → es[α]? = some byeTeam)
    (hreales : ∀ α < nreal, ∀ e : Team, es[α]? = some e → e.bye = false)
    (hinj : ∀ α < nreal, ∀ β < nreal, ∀ e f : Team, es[α]? = some e → es[β]? = some f →
      e.name = f.name → α = β)
    (hxname : ∀ α < nreal, ∀ e : Team, es[α]? = some e → e.name ≠ x.name)
    (α β : Nat) (hα : α < nreal) (hβ : β < nreal)
    (ea eb : Team) (hea : es[α]? = some ea) (heb : es[β]? = some eb)
    (r i : Nat) (hi : i < (es.length + 1) / 2) :
    slotQ x es (pairMatch ea.name eb.name) r i = true ↔
      (1 ≤ i ∧
        (((i - 1 + r * (es.length - 1)) % es.length = α ∧
          (es.length - 1 - i + r * (es.length - 1)) % es.length = β) ∨
         ((i - 1 + r * (es.length - 1)) % es.length = β ∧
          (es.length - 1 - i + r * (es.length - 1)) % es.length = α))) := by
  have hαm : α < es.length := by
    by_contra hc
    rw [List.getElem?_eq_none (by omega)] at hea
    cases hea
  have hβm : β < es.length := by
    by_contra hc
    rw [List.getElem?_eq_none (by omega)] at heb
    cases heb
  have hm1 : 1 ≤ es.length := by omega
  have hean := hxname α hα ea hea
  have hebn := hxname β hβ eb heb
  by_cases hi0 : i = 0
  · subst hi0
    have hmlt : (es.length - 1 - 0 + r * (es.length - 1)) % es.length < es.length :=
      Nat.mod_lt _ (by omega)
    obtain ⟨b, hb⟩ : ∃ b,
        es[(es.length - 1 - 0 + r * (es.length - 1)) % es.length]? = some b :=
      ⟨_, List.getElem?_eq_getElem hmlt⟩
    rw [slotQ_zero x es _ r b hb, hxreal]
    constructor
    · intro hq
      exfalso
      cases hbb : b.bye with
      | true =>
        rw [hbb] at hq
        simp at hq
      | false =>
        rw [hbb] at hq
        simp only [Bool.or_false, if_neg] at hq
        have hq2 : pairMatch ea.name eb.name (x.name, b.name) = true := by simpa using hq
        simp only [pairMatch, Bool.or_eq_true, Bool.and_eq_true, beq_iff_eq] at hq2
        rcases hq2 with ⟨hxa, _⟩ | ⟨hxb, _⟩
        · exact hean hxa.symm
        · exact hebn hxb.symm
    · rintro ⟨hge, _⟩
      omega
  · have hmltL : (i - 1 + r * (es.length - 1)) % es.length < es.length :=
      Nat.mod_lt _ (by omega)
    have hmltR : (es.length - 1 - i + r * (es.length - 1)) % es.length < es.length :=
      Nat.mod_lt _ (by omega)
    obtain ⟨a, ha⟩ : ∃ a, es[(i - 1 + r * (es.length - 1)) % es.length]? = some a :=
      ⟨_, List.getElem?_eq_getElem hmltL⟩
    obtain ⟨b, hb⟩ : ∃ b, es[(es.length - 1 - i + r * (es.length - 1)) % es.length]? = some b :=
      ⟨_, List.getElem?_eq_getElem hmltR⟩
    rw [slotQ_succ x es _ r i hi0 a b ha hb]
    constructor
    · intro hq
      by_cases hbye2 : (a.bye || b.bye) = true
      · rw [if_pos hbye2] at hq
        cases hq
      · rw [if_neg hbye2] at hq
        have hareal : a.bye = false := by
          cases hval : a.bye
          · rfl
          · rw [hval] at hbye2
            simp at hbye2
        have hbreal : b.bye = false := by
          cases hval : b.bye
          · rfl
          · rw [hval] at hbye2
            simp at hbye2
        have halt := (es_real_iff es nreal hbye hreales _ hmltL a ha).mp hareal
        have hblt := (es_real_iff es nreal hbye hreales _ hmltR b hb).mp hbreal
        simp only [pairMatch, Bool.or_eq_true, Bool.and_eq_true, beq_iff_eq] at hq
        rcases hq with ⟨haa, hbb⟩ | ⟨haa, hbb⟩
        · exact ⟨by omega, Or.inl ⟨hinj _ halt α hα a ea ha hea haa,
            hinj _ hblt β hβ b eb hb heb hbb⟩⟩
        · exact ⟨by omega, Or.inr ⟨hinj _ halt β hβ a eb ha heb haa,
            hinj _ hblt α hα b ea hb hea hbb⟩⟩
    · rintro ⟨_, hcase | hcase⟩
      · have hae : a = ea := by
          rw [hcase.1, hea] at ha
          exact (Option.some.inj ha).symm
        have hbe : b = eb := by
          rw [hcase.2, heb] at hb
          exact (Option.some.inj hb).symm
        have hareal : a.bye = false := hae ▸ hreales α hα ea hea
        have hbreal : b.bye = false := hbe ▸ hreales β hβ eb heb
        rw [hareal, hbreal]
        simp [pairMatch, hae, hbe]
      · have hae : a = eb := by
          rw [hcase.1, heb] at ha
          exact (Option.some.inj ha).symm
        have hbe : b = ea := by
          rw [hcase.2, hea] at hb
          exact (Option.some.inj hb).symm
        have hareal : a.bye = false := hae ▸ hreales β hβ eb heb
        have hbreal : b.bye = false := hbe ▸ hreales α hα ea hea
        rw [hareal, hbreal]
        simp [pairMatch, hae, hbe]

lemma slotQ_contains_char
    (hm : es.length % 2 = 1)
    (hxreal : x.bye = false)
    (hbye : ∀ α, nreal ≤ α → α < es.length → es[α]? = some byeTeam)
    (hreales : ∀ α < nreal, ∀ e : Team, es[α]? = some e → e.bye = false)
    (hinj : ∀ α < nreal, ∀ β < nreal, ∀ e f : Team, es[α]? = some e → es[β]? = some f →
      e.name = f.name → α = β)
    (hxname : ∀ α < nreal, ∀ e : Team, es[α]? = some e → e.name ≠ x.name)
    (α : Nat) (hα : α < nreal) (ea : Team) (hea : es[α]? = some ea)
    (r i : Nat) (hi : i < (es.length + 1) / 2) :
    slotQ x es (containsName ea.name) r i = true ↔
      ((i = 0 ∧ (es.length - 1 + r * (es.length - 1)) % es.length = α) ∨
       (1 ≤ i ∧ (i - 1 + r * (es.length - 1)) % es.length = α ∧
          (es.length - 1 - i + r * (es.length - 1)) % es.length < nreal) ∨
       (1 ≤ i ∧ (es.length - 1 - i + r * (es.length - 1)) % es.length = α ∧
          (i - 1 + r * (es.length - 1)) % es.length < nreal)) := by
  have hαm : α < es.length := by
    by_contra hc
    rw [List.getElem?_eq_none (by omega)] at hea
    cases hea
  have hm1 : 1 ≤ es.length := by omega
  have hean := hxname α hα ea hea
  by_cases hi0 : i = 0
  · subst hi0
    have hidx : es.length - 1 - 0 + r * (es.length - 1) =
        es.length - 1 + r * (es.length - 1) := by omega
    have hmlt : (es.length - 1 + r * (es.length - 1)) % es.length < es.length :=
      Nat.mod_lt _ (by omega)
    obtain ⟨b, hb⟩ : ∃ b, es[(es.length - 1 + r * (es.length - 1)) % es.length]? = some b :=
      ⟨_, List.getElem?_eq_getElem hmlt⟩
    rw [slotQ_zero x es _ r b (by rw [← hidx] at hb; exact hb), hxreal]
    constructor
    · intro hq
      cases hbb : b.bye with
      | true =>
        rw [hbb] at hq
        simp at hq
      | false =>
        rw [hbb] at hq
        simp only [Bool.or_false, if_neg] at hq
        have hq2 : containsName ea.name (x.name, b.name) = true := by simpa using hq
        simp only [containsName, Bool.or_eq_true, beq_iff_eq] at hq2
        rcases hq2 with hxa | hba
        · exact absurd hxa.symm hean
        · have hblt := (es_real_iff es nreal hbye hreales _ hmlt b hb).mp hbb
          exact Or.inl ⟨rfl, hinj _ hblt α hα b ea hb hea hba⟩
    · rintro (⟨_, hidxα⟩ | ⟨hge, _⟩ | ⟨hge, _⟩)
      · have hbe : b = ea := by
          rw [hidxα, hea] at hb
          exact (Option.some.inj hb).symm
        have hbreal : b.bye = false := hbe ▸ hreales α hα ea hea
        rw [hbreal]
        simp [containsName, hbe]
      · omega
      · omega
  · have hmltL : (i - 1 + r * (es.length - 1)) % es.length < es.length :=
      Nat.mod_lt _ (by omega)
    have hmltR : (es.length - 1 - i + r * (es.length - 1)) % es.length < es.length :=
      Nat.mod_lt _ (by omega)
    obtain ⟨a, ha⟩ : ∃ a, es[(i - 1 + r * (es.length - 1)) % es.length]? = some a :=
      ⟨_, List.getElem?_eq_getElem hmltL⟩
    obtain ⟨b, hb⟩ : ∃ b, es[(es.length - 1 - i + r * (es.length - 1)) % es.length]? = some b :=
      ⟨_, List.getElem?_eq_getElem hmltR⟩
    rw [slotQ_succ x es _ r i hi0 a b ha hb]
    constructor
    · intro hq
      by_cases hbye2 : (a.bye || b.bye) = true
      · rw [if_pos hbye2] at hq
        cases hq
      · rw [if_neg hbye2] at hq
        have hareal : a.bye = false := by
          cases hval : a.bye
          · rfl
          · rw [hval] at hbye2
            simp at hbye2
        have hbreal : b.bye = false := by
          cases hval : b.bye
          · rfl
          · rw [hval] at hbye2
            simp at hbye2
        have halt := (es_real_iff es nreal hbye hreales _ hmltL a ha).mp hareal
        have hblt := (es_real_iff es nreal hbye hreales _ hmltR b hb).mp hbreal
        simp only [containsName, Bool.or_eq_true, beq_iff_eq] at hq
        rcases hq with haa | hba
        · exact Or.inr (Or.inl ⟨by omega, hinj _ halt α hα a ea ha hea haa, hblt⟩)
        · exact Or.inr (Or.inr ⟨by omega, hinj _ hblt α hα b ea hb hea hba, halt⟩)
    · rintro (⟨hz, _⟩ | ⟨_, hL, hR⟩ | ⟨_, hR, hL⟩)
      · exact absurd hz hi0
      · have hae : a = ea := by
          rw [hL, hea] at ha
          exact (Option.some.inj ha).symm
        have hareal : a.bye = false := hae ▸ hreales α hα ea hea
        have hbreal : b.bye = false := hreales _ hR b hb
        rw [hareal, hbreal]
        simp [containsName, hae]
      · have hbe : b = ea := by
          rw [hR, hea] at hb
          exact (Option.some.inj hb).symm
        have hbreal : b.bye = false := hbe ▸ hreales α hα ea hea
        have hareal : a.bye = false := hreales _ hL a ha
        rw [hareal, hbreal]
        simp [containsName, hbe]

lemma slotQ_contains_x_char
    (hm : es.length % 2 = 1)
    (hxreal : x.bye = false)
    (hbye : ∀ α, nreal ≤ α → α < es.length → es[α]? = some byeTeam)
    (hreales : ∀ α < nreal, ∀ e : Team, es[α]? = some e → e.bye = false)
    (hxname : ∀ α < nreal, ∀ e : Team, es[α]? = some e → e.name ≠ x.name)
    (r i : Nat) (hi : i < (es.length + 1) / 2) :
    slotQ x es (containsName x.name) r i = true ↔
      (i = 0 ∧ (es.length - 1 + r * (es.length - 1)) % es.length < nreal) := by
  have hm1 : 1 ≤ es.length := by omega
  by_cases hi0 : i = 0
  · subst hi0
    have hidx : es.length - 1 - 0 + r * (es.length - 1) =
        es.length - 1 + r * (es.length - 1) := by omega
    have hmlt : (es.length - 1 + r * (es.length - 1)) % es.length < es.length :=
      Nat.mod_lt _ (by omega)
    obtain ⟨b, hb⟩ : ∃ b, es[(es.length - 1 + r * (es.length - 1)) % es.length]? = some b :=
      ⟨_, List.getElem?_eq_getElem hmlt⟩
    rw [slotQ_zero x es _ r b (by rw [← hidx] at hb; exact hb), hxreal]
    constructor
    · intro hq
      cases hbb : b.bye with
      | true =>
        rw [hbb] at hq
        simp at hq
      | false =>
        exact ⟨rfl, (es_real_iff es nreal hbye hreales _ hmlt b hb).mp hbb⟩
    · rintro ⟨_, hlt⟩
      have hbreal : b.bye = false := hreales _ hlt b hb
      rw [hbreal]
      simp [containsName]
  · have hmltL : (i - 1 + r * (es.length - 1)) % es.length < es.length :=
      Nat.mod_lt _ (by omega)
    have hmltR : (es.length - 1 - i + r * (es.length - 1)) % es.length < es.length :=
      Nat.mod_lt _ (by omega)
    obtain ⟨a, ha⟩ : ∃ a, es[(i - 1 + r * (es.length - 1)) % es.length]? = some a :=
      ⟨_, List.getElem?_eq_getElem hmltL⟩
    obtain ⟨b, hb⟩ : ∃ b, es[(es.length - 1 - i + r * (es.length - 1)) % es.length]? = some b :=
      ⟨_, List.getElem?_eq_getElem hmltR⟩
    rw [slotQ_succ x es _ r i hi0 a b ha hb]
    constructor
    · intro hq
      exfalso
      by_cases hbye2 : (a.bye || b.bye) = true
      · rw [if_pos hbye2] at hq
        cases hq
      · rw [if_neg hbye2] at hq
        have hareal : a.bye = false := by
          cases hval : a.bye
          · rfl
          · rw [hval] at hbye2
            simp at hbye2
        have hbreal : b.bye = false := by
          cases hval : b.bye
          · rfl
          · rw [hval] at hbye2
            simp at hbye2
        have halt := (es_real_iff es nreal hbye hreales _ hmltL a ha).mp hareal
        have hblt := (es_real_iff es nreal hbye hreales _ hmltR b hb).mp hbreal
        simp only [containsName, Bool.or_eq_true, beq_iff_eq] at hq
        rcases hq with haa | hba
        · exact hxname _ halt a ha haa
        · exact hxname _ hblt b hb hba
    · rintro ⟨hz, _⟩
      exact absurd hz hi0

lemma slotQ_emit_char
    (hm : es.length % 2 = 1)
    (hxreal : x.bye = false)
    (hbye : ∀ α, nreal ≤ α → α < es.length → es[α]? = some byeTeam)
    (hreales : ∀ α < nreal, ∀ e : Team, es[α]? = some e → e.bye = false)
    (r i : Nat) (hi : i < (es.length + 1) / 2) :
    slotQ x es (fun pr => true) r i = true ↔
      ((i = 0 ∧ (es.length - 1 + r * (es.length - 1)) % es.length < nreal) ∨
       (1 ≤ i ∧ (i - 1 + r * (es.length - 1)) % es.length < nreal ∧
         (es.length - 1 - i + r * (es.length - 1)) % es.length < nreal)) := by
  have hm1 : 1 ≤ es.length := by omega
  by_cases hi0 : i = 0
  · subst hi0
    have hidx : es.length - 1 - 0 + r * (es.length - 1) =
        es.length - 1 + r * (es.length - 1) := by omega
    have hmlt : (es.length - 1 + r * (es.length - 1)) % es.length < es.length :=
      Nat.mod_lt _ (by omega)
    obtain ⟨b, hb⟩ : ∃ b, es[(es.length - 1 + r * (es.length - 1)) % es.length]? = some b :=
      ⟨_, List.getElem?_eq_getElem hmlt⟩
    rw [slotQ_zero x es _ r b (by rw [← hidx] at hb; exact hb), hxreal]
    constructor
    · intro hq
      cases hbb : b.bye with
      | true =>
        rw [hbb] at hq
        simp at hq
      | false =>
        exact Or.inl ⟨rfl, (es_real_iff es nreal hbye hreales _ hmlt b hb).mp hbb⟩
    · rintro (⟨_, hlt⟩ | ⟨hge, _⟩)
      · have hbreal : b.bye = false := hreales _ hlt b hb
        rw [hbreal]
        simp
      · omega
  · have hmltL : (i - 1 + r * (es.length - 1)) % es.length < es.length :=
      Nat.mod_lt _ (by omega)
    have hmltR : (es.length - 1 - i + r * (es.length - 1)) % es.length < es.length :=
      Nat.mod_lt _ (by omega)
    obtain ⟨a, ha⟩ : ∃ a, es[(i - 1 + r * (es.length - 1)) % es.length]? = some a :=
      ⟨_, List.getElem?_eq_getElem hmltL⟩
    obtain ⟨b, hb⟩ : ∃ b, es[(es.length - 1 - i + r * (es.length - 1)) % es.length]? = some b :=
      ⟨_, List.getElem?_eq_getElem hmltR⟩
    rw [slotQ_succ x es _ r i hi0 a b ha hb]
    constructor
    · intro hq
      by_cases hbye2 : (a.bye || b.bye) = true
      · rw [if_pos hbye2] at hq
        cases hq
      · rw [if_neg hbye2] at hq
        have hareal : a.bye = false := by
          cases hval : a.bye
          · rfl
          · rw [hval] at hbye2
            simp at hbye2
        have hbreal : b.bye = false := by
          cases hval : b.bye
          · rfl
          · rw [hval] at hbye2
            simp at hbye2
        exact Or.inr ⟨by omega,
          (es_real_iff es nreal hbye hreales _ hmltL a ha).mp hareal,
          (es_real_iff es nreal hbye hreales _ hmltR b hb).mp hbreal⟩
    · rintro (⟨hz, _⟩ | ⟨_, hL, hR⟩)
      · exact absurd hz hi0
      · have hareal : a.bye = false := hreales _ hL a ha
        have hbreal : b.bye = false := hreales _ hR b hb
        rw [hareal, hbreal]
        simp

end SlotChar

lemma cast_pred_nat (m i : Nat) (hi : 1 ≤ i) :
    ((i - 1 : Nat) : ZMod m) = (i : ZMod m) - 1 := by
  rw [Nat.cast_sub hi, Nat.cast_one]

lemma cast_rev_nat (m i : Nat) (hi : i ≤ m - 1) (hm1 : 1 ≤ m) :
    ((m - 1 - i : Nat) : ZMod m) = -1 - (i : ZMod m) := by
  rw [Nat.cast_sub hi, cast_sub_one m hm1]

lemma solve_x_pair (m β : Nat) (hm : m % 2 = 1) (hβ : β < m) :
    (m - 1 - β) < m ∧ (m - 1 + (m - 1 - β) * (m - 1)) % m = β ∧
      ∀ r < m, (m - 1 + r * (m - 1)) % m = β → r = m - 1 - β := by
  haveI : NeZero m := ⟨by omega⟩
  have hm1 : 1 ≤ m := by omega
  have hcast : ((m - 1 - β : Nat) : ZMod m) = -1 - (β : ZMod m) :=
    cast_rev_nat m β (by omega) hm1
  refine ⟨by omega, ?_, ?_⟩
  · rw [idx_eq_iff m (m - 1) (m - 1 - β) β hβ hm1, cast_sub_one m hm1, hcast]
    ring
  · intro r hr heq
    rw [idx_eq_iff m (m - 1) r β hβ hm1, cast_sub_one m hm1] at heq
    have hkey : (r : ZMod m) = ((m - 1 - β : Nat) : ZMod m) := by
      rw [hcast]
      linear_combination -heq
    have h := natmod_eq_of_zmod m r (m - 1 - β) (by omega) hkey
    rwa [Nat.mod_eq_of_lt hr] at h

lemma solve_es_pair (m α β : Nat) (hm : m % 2 = 1) (hα : α < m) (hβ : β < m)
    (hne : α ≠ β) :
    ∃ r₀ i₀ : Nat, r₀ < m ∧ 1 ≤ i₀ ∧ i₀ < (m + 1) / 2 ∧
      (((i₀ - 1 + r₀ * (m - 1)) % m = α ∧ (m - 1 - i₀ + r₀ * (m - 1)) % m = β) ∨
       ((i₀ - 1 + r₀ * (m - 1)) % m = β ∧ (m - 1 - i₀ + r₀ * (m - 1)) % m = α)) ∧
      (∀ r < m, ∀ i, 1 ≤ i → i < (m + 1) / 2 →
        (((i - 1 + r * (m - 1)) % m = α ∧ (m - 1 - i + r * (m - 1)) % m = β) ∨
         ((i - 1 + r * (m - 1)) % m = β ∧ (m - 1 - i + r * (m - 1)) % m = α)) →
        r = r₀ ∧ i = i₀) := by
  haveI : NeZero m := ⟨by omega⟩
  have hm1 : 1 ≤ m := by omega
  set A : ZMod m := (α : ZMod m) with hA
  set B : ZMod m := (β : ZMod m) with hB
  have hABne : A ≠ B := by
    intro hc
    have h := natmod_eq_of_zmod m α β hβ hc
    rw [Nat.mod_eq_of_lt hα] at h
    exact hne h
  have h2i : (2 : ZMod m) * (((m + 1) / 2 : Nat) : ZMod m) = 1 := two_mul_inv2 m hm
  set ρ : ZMod m := (((m + 1) / 2 : Nat) : ZMod m) * (-(A + B + 2)) with hρdef
  have h2ρ : 2 * ρ = -(A + B + 2) := by
    rw [hρdef]
    calc (2 : ZMod m) * ((((m + 1) / 2 : Nat) : ZMod m) * (-(A + B + 2)))
        = ((2 : ZMod m) * (((m + 1) / 2 : Nat) : ZMod m)) * (-(A + B + 2)) := by ring
      _ = -(A + B + 2) := by rw [h2i, one_mul]
  set iZA : ZMod m := A + 1 + ρ with hiZAdef
  set iZB : ZMod m := B + 1 + ρ with hiZBdef
  have hsum : iZA + iZB = 0 := by
    rw [hiZAdef, hiZBdef]
    linear_combination h2ρ
  have hneAB : iZA ≠ iZB := by
    intro hc
    rw [hiZAdef, hiZBdef] at hc
    exact hABne (by linear_combination hc)
  have hiZA0 : iZA ≠ 0 := by
    intro hc
    rw [hc, zero_add] at hsum
    exact hneAB (hc.trans hsum.symm)
  have hiZB0 : iZB ≠ 0 := by
    intro hc
    rw [hc, add_zero] at hsum
    exact hneAB (hsum.trans hc.symm)
  have hρcast : ((ρ.val : Nat) : ZMod m) = ρ := by rw [ZMod.natCast_val, ZMod.cast_id]
  have hiAcast : ((iZA.val : Nat) : ZMod m) = iZA := by rw [ZMod.natCast_val, ZMod.cast_id]
  have hiBcast : ((iZB.val : Nat) : ZMod m) = iZB := by rw [ZMod.natCast_val, ZMod.cast_id]
  have hiA1 : 1 ≤ iZA.val := by
    rcases Nat.eq_zero_or_pos iZA.val with h | h
    · exact absurd ((ZMod.val_eq_zero iZA).mp h) hiZA0
    · exact h
  have hiB1 : 1 ≤ iZB.val := by
    rcases Nat.eq_zero_or_pos iZB.val with h | h
    · exact absurd ((ZMod.val_eq_zero iZB).mp h) hiZB0
    · exact h
  have hiAm : iZA.val < m := ZMod.val_lt iZA
  have hiBm : iZB.val < m := ZMod.val_lt iZB
  have hsumval : iZA.val + iZB.val = m := by
    have hBneg : iZB = -iZA := eq_neg_of_add_eq_zero_right hsum
    rw [hBneg, ZMod.neg_val, if_neg hiZA0]
    omega
  have hemitA : (iZA.val - 1 + ρ.val * (m - 1)) % m = α ∧
      (m - 1 - iZA.val + ρ.val * (m - 1)) % m = β := by
    constructor
    · rw [idx_eq_iff m (iZA.val - 1) ρ.val α hα hm1, cast_pred_nat m _ hiA1,
        hiAcast, hρcast, hiZAdef]
      ring
    · rw [idx_eq_iff m (m - 1 - iZA.val) ρ.val β hβ hm1,
        cast_rev_nat m _ (by omega) hm1, hiAcast, hρcast, hiZAdef]
      linear_combination -h2ρ
  have hemitB : (iZB.val - 1 + ρ.val * (m - 1)) % m = β ∧
      (m - 1 - iZB.val + ρ.val * (m - 1)) % m = α := by
    constructor
    · rw [idx_eq_iff m (iZB.val - 1) ρ.val β hβ hm1, cast_pred_nat m _ hiB1,
        hiBcast, hρcast, hiZBdef]
      ring
    · rw [idx_eq_iff m (m - 1 - iZB.val) ρ.val α hα hm1,
        cast_rev_nat m _ (by omega) hm1, hiBcast, hρcast, hiZBdef]
      linear_combination -h2ρ
  have huniqr : ∀ r < m, ∀ i, 1 ≤ i → i < (m + 1) / 2 →
      (((i - 1 + r * (m - 1)) % m = α ∧ (m - 1 - i + r * (m - 1)) % m = β) ∨
       ((i - 1 + r * (m - 1)) % m = β ∧ (m - 1 - i + r * (m - 1)) % m = α)) →
      r = ρ.val ∧ ((i = iZA.val) ∨ (i = iZB.val)) := by
    intro r hr i hi1 hi2 hcase
    have hile : i ≤ m - 1 := by omega
    rcases hcase with ⟨h1, h2⟩ | ⟨h1, h2⟩
    · rw [idx_eq_iff m (i - 1) r α hα hm1, cast_pred_nat m i hi1] at h1
      rw [idx_eq_iff m (m - 1 - i) r β hβ hm1, cast_rev_nat m i hile hm1] at h2
      have hr2 : 2 * (r : ZMod m) = 2 * ρ := by
        rw [h2ρ]
        linear_combination -h1 - h2
      have hrρ : (r : ZMod m) = ρ := two_cancel m hm _ _ hr2
      have hrr : r = ρ.val := by
        have h := natmod_eq_of_zmod m r ρ.val (ZMod.val_lt ρ) (by rw [hrρ, hρcast])
        rwa [Nat.mod_eq_of_lt hr] at h
      have hiZ : (i : ZMod m) = iZA := by
        rw [hiZAdef]
        linear_combination h1 + hrρ
      have hii : i = iZA.val := by
        have h := natmod_eq_of_zmod m i iZA.val hiAm (by rw [hiZ, hiAcast])
        rwa [Nat.mod_eq_of_lt (by omega : i < m)] at h
      exact ⟨hrr, Or.inl hii⟩
    · rw [idx_eq_iff m (i - 1) r β hβ hm1, cast_pred_nat m i hi1] at h1
      rw [idx_eq_iff m (m - 1 - i) r α hα hm1, cast_rev_nat m i hile hm1] at h2
      have hr2 : 2 * (r : ZMod m) = 2 * ρ := by
        rw [h2ρ]
        linear_combination -h1 - h2
      have hrρ : (r : ZMod m) = ρ := two_cancel m hm _ _ hr2
      have hrr : r = ρ.val := by
        have h := natmod_eq_of_zmod m r ρ.val (ZMod.val_lt ρ) (by rw [hrρ, hρcast])
        rwa [Nat.mod_eq_of_lt hr] at h
      have hiZ : (i : ZMod m) = iZB := by
        rw [hiZBdef]
        linear_combination h1 + hrρ
      have hii : i = iZB.val := by
        have h := natmod_eq_of_zmod m i iZB.val hiBm (by rw [hiZ, hiBcast])
        rwa [Nat.mod_eq_of_lt (by omega : i < m)] at h
      exact ⟨hrr, Or.inr hii⟩
  by_cases hcA : iZA.val < (m + 1) / 2
  · refine ⟨ρ.val, iZA.val, ZMod.val_lt ρ, hiA1, hcA, Or.inl hemitA, ?_⟩
    intro r hr i hi1 hi2 hcase
    obtain ⟨hrr, hii⟩ := huniqr r hr i hi1 hi2 hcase
    rcases hii with hii | hii
    · exact ⟨hrr, hii⟩
    · exfalso
      omega
  · have hcB : iZB.val < (m + 1) / 2 := by omega
    refine ⟨ρ.val, iZB.val, ZMod.val_lt ρ, hiB1, hcB, Or.inr hemitB, ?_⟩
    intro r hr i hi1 hi2 hcase
    obtain ⟨hrr, hii⟩ := huniqr r hr i hi1 hi2 hcase
    rcases hii with hii | hii
    · exfalso
      omega
    · exact ⟨hrr, hii⟩

lemma cast_eq_below (m a b : Nat) [NeZero m] (ha : a < m) (hb : b < m)
    (h : (a : ZMod m) = (b : ZMod m)) : a = b := by
  have h2 := natmod_eq_of_zmod m a b hb h
  rwa [Nat.mod_eq_of_lt ha] at h2

lemma jU_shift (m α r : Nat) (hα : α < m) (hm1 : 1 ≤ m) :
    ((α + r) % m + r * (m - 1)) % m = α := by
  rw [Nat.mod_add_mod]
  have h1 : α + r + r * (m - 1) = α + r * m := by
    have h2 : r * (m - 1) + r = r * m := by
      have h3 : r * ((m - 1) + 1) = r * (m - 1) + r := Nat.mul_succ r (m - 1)
      have h4 : (m - 1) + 1 = m := by omega
      rw [h4] at h3
      omega
    omega
  rw [h1, Nat.add_mul_mod_self_right, Nat.mod_eq_of_lt hα]

lemma solve_x_bye (m r : Nat) (hm : m % 2 = 1) (hr : r < m) :
    (m - 1 + r * (m - 1)) % m = m - 1 ↔ r = 0 := by
  haveI : NeZero m := ⟨by omega⟩
  have hm1 : 1 ≤ m := by omega
  rw [idx_eq_iff m (m - 1) r (m - 1) (by omega) hm1, cast_sub_one m hm1]
  constructor
  · intro h
    have hz : (r : ZMod m) = ((0 : Nat) : ZMod m) := by
      push_cast
      linear_combination -h
    exact cast_eq_below m r 0 hr (by omega) hz
  · intro h
    subst h
    push_cast
    ring

lemma bye_slot_arith (m r : Nat) (hm : m % 2 = 1) (hm3 : 3 ≤ m) (hr : r < m) :
    ∃ i₀, i₀ < (m + 1) / 2 ∧
      ((i₀ = 0 ∧ (m - 1 + r * (m - 1)) % m = m - 1) ∨
       (1 ≤ i₀ ∧ ((i₀ - 1 + r * (m - 1)) % m = m - 1 ∨
         (m - 1 - i₀ + r * (m - 1)) % m = m - 1))) ∧
      ∀ i < (m + 1) / 2, i ≠ i₀ →
        (i = 0 → (m - 1 + r * (m - 1)) % m ≠ m - 1) ∧
        (1 ≤ i → (i - 1 + r * (m - 1)) % m ≠ m - 1 ∧
          (m - 1 - i + r * (m - 1)) % m ≠ m - 1) := by
  haveI : NeZero m := ⟨by omega⟩
  have hm1 : 1 ≤ m := by omega
  rcases Nat.eq_zero_or_pos r with hr0 | hrpos
  · subst hr0
    refine ⟨0, by omega, Or.inl ⟨rfl, ?_⟩, ?_⟩
    · simp [Nat.mod_eq_of_lt (show m - 1 < m by omega)]
    · intro i hi hne
      refine ⟨fun hz => absurd hz hne, fun h1 => ⟨?_, ?_⟩⟩
      · intro hc
        rw [idx_eq_iff m (i - 1) 0 (m - 1) (by omega) hm1, cast_pred_nat m i h1,
          cast_sub_one m hm1] at hc
        have hiz : (i : ZMod m) = ((0 : Nat) : ZMod m) := by
          push_cast
          linear_combination hc
        have := cast_eq_below m i 0 (by omega) (by omega) hiz
        omega
      · intro hc
        rw [idx_eq_iff m (m - 1 - i) 0 (m - 1) (by omega) hm1,
          cast_rev_nat m i (by omega) hm1, cast_sub_one m hm1] at hc
        have hiz : (i : ZMod m) = ((0 : Nat) : ZMod m) := by
          push_cast
          linear_combination -hc
        have := cast_eq_below m i 0 (by omega) (by omega) hiz
        omega
  · by_cases hrhalf : r < (m + 1) / 2
    · refine ⟨r, hrhalf, Or.inr ⟨hrpos, Or.inl ?_⟩, ?_⟩
      · rw [idx_eq_iff m (r - 1) r (m - 1) (by omega) hm1, cast_pred_nat m r hrpos,
          cast_sub_one m hm1]
        ring
      · intro i hi hne
        constructor
        · intro hz
          intro hc
          rw [idx_eq_iff m (m - 1) r (m - 1) (by omega) hm1, cast_sub_one m hm1] at hc
          have hrz : (r : ZMod m) = ((0 : Nat) : ZMod m) := by
            push_cast
            linear_combination -hc
          have := cast_eq_below m r 0 hr (by omega) hrz
          omega
        · intro h1
          constructor
          · intro hc
            rw [idx_eq_iff m (i - 1) r (m - 1) (by omega) hm1, cast_pred_nat m i h1,
              cast_sub_one m hm1] at hc
            have hir : (i : ZMod m) = (r : ZMod m) := by
              linear_combination hc
            have := cast_eq_below m i r (by omega) hr hir
            omega
          · intro hc
            rw [idx_eq_iff m (m - 1 - i) r (m - 1) (by omega) hm1,
              cast_rev_nat m i (by omega) hm1, cast_sub_one m hm1] at hc
            have hsum : ((i + r : Nat) : ZMod m) = ((0 : Nat) : ZMod m) := by
              push_cast
              linear_combination -hc
            have hmod := natmod_eq_of_zmod m (i + r) 0 (by omega) hsum
            obtain ⟨k, hk⟩ := Nat.dvd_of_mod_eq_zero hmod
            have hk2 : k < 2 := by
              by_contra hk2
              push_neg at hk2
              have h2m : 2 * m ≤ i + r := by
                calc 2 * m = m * 2 := by ring
                  _ ≤ m * k := Nat.mul_le_mul_left m hk2
                  _ = i + r := hk.symm
              omega
            interval_cases k
            · omega
            · omega
    · refine ⟨m - r, by omega, Or.inr ⟨by omega, Or.inr ?_⟩, ?_⟩
      · rw [idx_eq_iff m (m - 1 - (m - r)) r (m - 1) (by omega) hm1,
          cast_rev_nat m (m - r) (by omega) hm1, cast_sub_one m hm1]
        have hcmr : ((m - r : Nat) : ZMod m) = -(r : ZMod m) := by
          have h2 : ((m - r + r : Nat) : ZMod m) = ((m : Nat) : ZMod m) := by
            congr 1
            omega
          rw [ZMod.natCast_self] at h2
          push_cast at h2
          linear_combination h2
        rw [hcmr]
        ring
      · intro i hi hne
        constructor
        · intro hz
          intro hc
          rw [idx_eq_iff m (m - 1) r (m - 1) (by omega) hm1, cast_sub_one m hm1] at hc
          have hrz : (r : ZMod m) = ((0 : Nat) : ZMod m) := by
            push_cast
            linear_combination -hc
          have := cast_eq_below m r 0 hr (by omega) hrz
          omega
        · intro h1
          constructor
          · intro hc
            rw [idx_eq_iff m (i - 1) r (m - 1) (by omega) hm1, cast_pred_nat m i h1,
              cast_sub_one m hm1] at hc
            have hir : (i : ZMod m) = (r : ZMod m) := by
              linear_combination hc
            have := cast_eq_below m i r (by omega) hr hir
            omega
          · intro hc
            rw [idx_eq_iff m (m - 1 - i) r (m - 1) (by omega) hm1,
              cast_rev_nat m i (by omega) hm1, cast_sub_one m hm1] at hc
            have hsum : ((i + r : Nat) : ZMod m) = ((0 : Nat) : ZMod m) := by
              push_cast
              linear_combination -hc
            have hmod := natmod_eq_of_zmod m (i + r) 0 (by omega) hsum
            obtain ⟨k, hk⟩ := Nat.dvd_of_mod_eq_zero hmod
            have hk2 : k < 2 := by
              by_contra hk2
              push_neg at hk2
              have h2m : 2 * m ≤ i + r := by
                calc 2 * m = m * 2 := by ring
                  _ ≤ m * k := Nat.mul_le_mul_left m hk2
                  _ = i + r := hk.symm
              omega
            interval_cases k
            · omega
            · omega

lemma pairMatch_comm (u v : String) : pairMatch u v = pairMatch v u := by
  funext pr
  unfold pairMatch
  exact Bool.or_comm _ _

lemma notAny_iff (l : List (String × String)) (p : String × String → Bool) :
    (!(l.any p)) = true ↔ l.countP p = 0 := by
  rw [Bool.not_eq_true' (l.any p), List.any_eq_false, List.countP_eq_zero]

lemma even_total_arith (m : Nat) (hm : m % 2 = 1) :
    m * ((m + 1) / 2) = (m + 1) * m / 2 := by
  obtain ⟨k, hk⟩ : ∃ k, m = 2 * k + 1 := ⟨m / 2, by omega⟩
  subst hk
  have h1 : (2 * k + 1 + 1) / 2 = k + 1 := by omega
  rw [h1]
  have h2 : (2 * k + 1 + 1) * (2 * k + 1) = 2 * ((k + 1) * (2 * k + 1)) := by ring
  rw [h2, Nat.mul_div_cancel_left _ (by norm_num : 0 < 2)]
  ring

lemma odd_total_arith (m : Nat) (hm : m % 2 = 1) :
    m * ((m + 1) / 2 - 1) = m * (m - 1) / 2 := by
  obtain ⟨k, hk⟩ : ∃ k, m = 2 * k + 1 := ⟨m / 2, by omega⟩
  subst hk
  have h1 : (2 * k + 1 + 1) / 2 - 1 = k := by omega
  rw [h1]
  have h0 : 2 * k + 1 - 1 = 2 * k := by omega
  rw [h0]
  have h2 : (2 * k + 1) * (2 * k) = 2 * ((2 * k + 1) * k) := by ring
  rw [h2, Nat.mul_div_cancel_left _ (by norm_num : 0 < 2)]

lemma solve_bye_round (m α : Nat) (hm : m % 2 = 1) (hm3 : 3 ≤ m) (hα : α < m - 1) :
    ∃ rb < m,
      (∀ i < (m + 1) / 2,
        ¬(i = 0 ∧ (m - 1 + rb * (m - 1)) % m = α) ∧
        ¬(1 ≤ i ∧ (i - 1 + rb * (m - 1)) % m = α ∧
            (m - 1 - i + rb * (m - 1)) % m < m - 1) ∧
        ¬(1 ≤ i ∧ (m - 1 - i + rb * (m - 1)) % m = α ∧
            (i - 1 + rb * (m - 1)) % m < m - 1)) ∧
      (∀ r < m, r ≠ rb → ∃ i < (m + 1) / 2,
        ((i = 0 ∧ (m - 1 + r * (m - 1)) % m = α) ∨
         (1 ≤ i ∧ (i - 1 + r * (m - 1)) % m = α ∧
            (m - 1 - i + r * (m - 1)) % m < m - 1) ∨
         (1 ≤ i ∧ (m - 1 - i + r * (m - 1)) % m = α ∧
            (i - 1 + r * (m - 1)) % m < m - 1))) := by
  haveI : NeZero m := ⟨by omega⟩
  have hm1 : 1 ≤ m := by omega
  have hαm : α < m := by omega
  set A : ZMod m := (α : ZMod m) with hA
  have h2i : (2 : ZMod m) * (((m + 1) / 2 : Nat) : ZMod m) = 1 := two_mul_inv2 m hm
  set ρ : ZMod m := (((m + 1) / 2 : Nat) : ZMod m) * (-(A + 1)) with hρdef
  have h2ρ : 2 * ρ = -(A + 1) := by
    rw [hρdef]
    calc (2 : ZMod m) * ((((m + 1) / 2 : Nat) : ZMod m) * (-(A + 1)))
        = ((2 : ZMod m) * (((m + 1) / 2 : Nat) : ZMod m)) * (-(A + 1)) := by ring
      _ = -(A + 1) := by rw [h2i, one_mul]
  have hρcast : ((ρ.val : Nat) : ZMod m) = ρ := by rw [ZMod.natCast_val, ZMod.cast_id]
  have hAne : A ≠ -1 := by
    intro hc
    have hcc : ((α : Nat) : ZMod m) = ((m - 1 : Nat) : ZMod m) :=
      calc ((α : Nat) : ZMod m) = A := hA.symm
        _ = -1 := hc
        _ = ((m - 1 : Nat) : ZMod m) := (cast_sub_one m hm1).symm
    have := cast_eq_below m α (m - 1) hαm (by omega) hcc
    omega
  refine ⟨ρ.val, ZMod.val_lt ρ, ?_, ?_⟩
  · intro i hi
    refine ⟨?_, ?_, ?_⟩
    · rintro ⟨hz, hc⟩
      rw [idx_eq_iff m (m - 1) ρ.val α hαm hm1, cast_sub_one m hm1, hρcast] at hc
      have hρ0 : ρ = 0 := by linear_combination h2ρ + hc
      exact hAne (by linear_combination -hc - hρ0)
    · rintro ⟨h1i, hcL, hcR⟩
      rw [idx_eq_iff m (i - 1) ρ.val α hαm hm1, cast_pred_nat m i h1i, hρcast] at hcL
      have hiρ : (i : ZMod m) = -ρ := by linear_combination hcL + h2ρ
      have hR : (m - 1 - i + ρ.val * (m - 1)) % m = m - 1 := by
        rw [idx_eq_iff m (m - 1 - i) ρ.val (m - 1) (by omega) hm1,
          cast_rev_nat m i (by omega) hm1, hρcast, cast_sub_one m hm1]
        linear_combination -hiρ
      omega
    · rintro ⟨h1i, hcR, hcL⟩
      rw [idx_eq_iff m (m - 1 - i) ρ.val α hαm hm1, cast_rev_nat m i (by omega) hm1,
        hρcast] at hcR
      have hiρ : (i : ZMod m) = ρ := by linear_combination -hcR - h2ρ
      have hL : (i - 1 + ρ.val * (m - 1)) % m = m - 1 := by
        rw [idx_eq_iff m (i - 1) ρ.val (m - 1) (by omega) hm1, cast_pred_nat m i h1i,
          hρcast, cast_sub_one m hm1]
        linear_combination hiρ
      omega
  · intro r hr hne
    have hrae : (r : ZMod m) ≠ ρ := by
      intro hc
      have h := natmod_eq_of_zmod m r ρ.val (ZMod.val_lt ρ) (by rw [hc, hρcast])
      rw [Nat.mod_eq_of_lt hr] at h
      exact hne h
    have hjUm : (α + r) % m < m := Nat.mod_lt _ (by omega)
    have hjshift : ((α + r) % m + r * (m - 1)) % m = α := jU_shift m α r hαm hm1
    by_cases hj1 : (α + r) % m = m - 1
    · rw [hj1] at hjshift
      exact ⟨0, by omega, Or.inl ⟨rfl, hjshift⟩⟩
    · by_cases hj2 : (α + r) % m < (m - 1) / 2
      · refine ⟨(α + r) % m + 1, by omega, Or.inr (Or.inl ⟨by omega, ?_, ?_⟩)⟩
        · have he : (α + r) % m + 1 - 1 = (α + r) % m := by omega
          rw [he]
          exact hjshift
        · have hlt : (m - 1 - ((α + r) % m + 1) + r * (m - 1)) % m < m :=
            Nat.mod_lt _ (by omega)
          rcases Nat.lt_or_ge ((m - 1 - ((α + r) % m + 1) + r * (m - 1)) % m) (m - 1)
            with h | h
          · exact h
          · exfalso
            have heq : (m - 1 - ((α + r) % m + 1) + r * (m - 1)) % m = m - 1 := by omega
            rw [idx_eq_iff m (m - 1 - ((α + r) % m + 1)) r (m - 1) (by omega) hm1,
              cast_rev_nat m ((α + r) % m + 1) (by omega) hm1, cast_sub_one m hm1] at heq
            have hc1 : (((α + r) % m + 1 : Nat) : ZMod m) = A + (r : ZMod m) + 1 := by
              push_cast [zmod_natCast_mod]
              ring
            rw [hc1] at heq
            have h2r : 2 * (r : ZMod m) = 2 * ρ := by
              rw [h2ρ]
              linear_combination -heq
            exact hrae (two_cancel m hm _ _ h2r)
      · refine ⟨m - 1 - (α + r) % m, by omega, Or.inr (Or.inr ⟨by omega, ?_, ?_⟩)⟩
        · have he : m - 1 - (m - 1 - (α + r) % m) = (α + r) % m := by omega
          rw [he]
          exact hjshift
        · have hlt : (m - 1 - (α + r) % m - 1 + r * (m - 1)) % m < m :=
            Nat.mod_lt _ (by omega)
          rcases Nat.lt_or_ge ((m - 1 - (α + r) % m - 1 + r * (m - 1)) % m) (m - 1)
            with h | h
          · exact h
          · exfalso
            have heq : (m - 1 - (α + r) % m - 1 + r * (m - 1)) % m = m - 1 := by omega
            rw [idx_eq_iff m (m - 1 - (α + r) % m - 1) r (m - 1) (by omega) hm1,
              cast_pred_nat m (m - 1 - (α + r) % m) (by omega), cast_sub_one m hm1] at heq
            have hc1 : ((m - 1 - (α + r) % m : Nat) : ZMod m) =
                -1 - (A + (r : ZMod m)) := by
              rw [cast_rev_nat m ((α + r) % m) (by omega) hm1, zmod_natCast_mod m (α + r)]
              push_cast
              ring
            rw [hc1] at heq
            have h2r : 2 * (r : ZMod m) = 2 * ρ := by
              rw [h2ρ]
              linear_combination -heq
            exact hrae (two_cancel m hm _ _ h2r)

lemma contains_uniq_arith (m α r : Nat) (hm : m % 2 = 1) (hα : α < m)
    (i j : Nat) (hi : i < (m + 1) / 2) (hj : j < (m + 1) / 2)
    (hdi : (i = 0 ∧ (m - 1 + r * (m - 1)) % m = α) ∨
           (1 ≤ i ∧ (i - 1 + r * (m - 1)) % m = α) ∨
           (1 ≤ i ∧ (m - 1 - i + r * (m - 1)) % m = α))
    (hdj : (j = 0 ∧ (m - 1 + r * (m - 1)) % m = α) ∨
           (1 ≤ j ∧ (j - 1 + r * (m - 1)) % m = α) ∨
           (1 ≤ j ∧ (m - 1 - j + r * (m - 1)) % m = α)) : i = j := by
  haveI : NeZero m := ⟨by omega⟩
  have hm1 : 1 ≤ m := by omega
  have hdi' : (i = 0 ∧ (-1 : ZMod m) - (r : ZMod m) = (α : ZMod m)) ∨
      (1 ≤ i ∧ (i : ZMod m) - 1 - r = (α : ZMod m)) ∨
      (1 ≤ i ∧ (-1 : ZMod m) - i - r = (α : ZMod m)) := by
    rcases hdi with ⟨h0, hq⟩ | ⟨h1, hq⟩ | ⟨h1, hq⟩
    · rw [idx_eq_iff m (m - 1) r α hα hm1, cast_sub_one m hm1] at hq
      exact Or.inl ⟨h0, hq⟩
    · rw [idx_eq_iff m (i - 1) r α hα hm1, cast_pred_nat m i h1] at hq
      exact Or.inr (Or.inl ⟨h1, hq⟩)
    · rw [idx_eq_iff m (m - 1 - i) r α hα hm1, cast_rev_nat m i (by omega) hm1] at hq
      exact Or.inr (Or.inr ⟨h1, hq⟩)
  have hdj' : (j = 0 ∧ (-1 : ZMod m) - (r : ZMod m) = (α : ZMod m)) ∨
      (1 ≤ j ∧ (j : ZMod m) - 1 - r = (α : ZMod m)) ∨
      (1 ≤ j ∧ (-1 : ZMod m) - j - r = (α : ZMod m)) := by
    rcases hdj with ⟨h0, hq⟩ | ⟨h1, hq⟩ | ⟨h1, hq⟩
    · rw [idx_eq_iff m (m - 1) r α hα hm1, cast_sub_one m hm1] at hq
      exact Or.inl ⟨h0, hq⟩
    · rw [idx_eq_iff m (j - 1) r α hα hm1, cast_pred_nat m j h1] at hq
      exact Or.inr (Or.inl ⟨h1, hq⟩)
    · rw [idx_eq_iff m (m - 1 - j) r α hα hm1, cast_rev_nat m j (by omega) hm1] at hq
      exact Or.inr (Or.inr ⟨h1, hq⟩)
  rcases hdi' with ⟨h0i, hqi⟩ | ⟨h1i, hqi⟩ | ⟨h1i, hqi⟩ <;>
    rcases hdj' with ⟨h0j, hqj⟩ | ⟨h1j, hqj⟩ | ⟨h1j, hqj⟩
  · omega
  · exfalso
    have hz : ((j : Nat) : ZMod m) = ((0 : Nat) : ZMod m) := by
      push_cast
      linear_combination hqj - hqi
    have := cast_eq_below m j 0 (by omega) (by omega) hz
    omega
  · exfalso
    have hz : ((j : Nat) : ZMod m) = ((0 : Nat) : ZMod m) := by
      push_cast
      linear_combination hqi - hqj
    have := cast_eq_below m j 0 (by omega) (by omega) hz
    omega
  · exfalso
    have hz : ((i : Nat) : ZMod m) = ((0 : Nat) : ZMod m) := by
      push_cast
      linear_combination hqi - hqj
    have := cast_eq_below m i 0 (by omega) (by omega) hz
    omega
  · have hz : ((i : Nat) : ZMod m) = ((j : Nat) : ZMod m) := by
      linear_combination hqi - hqj
    exact cast_eq_below m i j (by omega) (by omega) hz
  · exfalso
    have hz : ((i + j : Nat) : ZMod m) = ((0 : Nat) : ZMod m) := by
      push_cast
      linear_combination hqi - hqj
    have := cast_eq_below m (i + j) 0 (by omega) (by omega) hz
    omega
  · exfalso
    have hz : ((i : Nat) : ZMod m) = ((0 : Nat) : ZMod m) := by
      push_cast
      linear_combination hqj - hqi
    have := cast_eq_below m i 0 (by omega) (by omega) hz
    omega
  · exfalso
    have hz : ((i + j : Nat) : ZMod m) = ((0 : Nat) : ZMod m) := by
      push_cast
      linear_combination hqj - hqi
    have := cast_eq_below m (i + j) 0 (by omega) (by omega) hz
    omega
  · have hz : ((i : Nat) : ZMod m) = ((j : Nat) : ZMod m) := by
      linear_combination hqj - hqi
    exact cast_eq_below m i j (by omega) (by omega) hz

lemma roundRobin_countP_sum (teams : List Team) (x : Team) (es : List Team)
    (hwl : workList teams = x :: es) (hm : es.length % 2 = 1)
    (pred : String × String → Bool) :
    ((roundRobin teams).map fun rd => rd.matchPairs.countP pred).sum =
      ((List.range es.length).map fun r =>
        (List.range ((es.length + 1) / 2)).countP (slotQ x es pred r)).sum := by
  rw [roundRobin_eq_map, hwl, List.map_map]
  simp only [List.length_cons, Nat.add_sub_cancel]
  refine congrArg List.sum (List.map_congr_left fun r hr => ?_)
  simp only [Function.comp_apply]
  exact round_countP x es hm pred r

lemma roundRobin_len_sum (teams : List Team) (x : Team) (es : List Team)
    (hwl : workList teams = x :: es) (hm : es.length % 2 = 1) :
    ((roundRobin teams).map fun rd => rd.matchPairs.length).sum =
      ((List.range es.length).map fun r =>
        (List.range ((es.length + 1) / 2)).countP
          (slotQ x es (fun pr => true) r)).sum := by
  have h1 : ((roundRobin teams).map fun rd => rd.matchPairs.length).sum =
      ((roundRobin teams).map fun rd => rd.matchPairs.countP (fun pr => true)).sum := by
    refine congrArg List.sum (List.map_congr_left fun rd hrd => ?_)
    simp
  rw [h1]
  exact roundRobin_countP_sum teams x es hwl hm (fun pr => true)

lemma roundRobin_countP_rounds (teams : List Team) (x : Team) (es : List Team)
    (hwl : workList teams = x :: es) (p : RRound → Bool) :
    (roundRobin teams).countP p =
      (List.range es.length).countP fun r =>
        p ⟨r + 1, pairsOf (rrRotate^[r] (x :: es))⟩ := by
  rw [roundRobin_eq_map, hwl]
  simp only [List.length_cons, Nat.add_sub_cancel]
  rw [List.countP_map]
  rfl

lemma ts_facts (x : Team) (ts : List Team)
    (hnd : ((x :: ts).map Team.name).Nodup)
    (hreal : ∀ t ∈ x :: ts, t.bye = false) :
    x.bye = false ∧
    (∀ α < ts.length, ∀ e : Team, ts[α]? = some e → e.bye = false) ∧
    (∀ α < ts.length, ∀ β < ts.length, ∀ e f : Team, ts[α]? = some e →
      ts[β]? = some f → e.name = f.name → α = β) ∧
    (∀ α < ts.length, ∀ e : Team, ts[α]? = some e → e.name ≠ x.name) := by
  rw [List.map_cons, List.nodup_cons] at hnd
  obtain ⟨hxnotin, htsnd⟩ := hnd
  refine ⟨hreal x (List.mem_cons_self x ts), ?_, ?_, ?_⟩
  · intro α hα e he
    exact hreal e (List.mem_cons_of_mem x (List.getElem?_mem he))
  · intro α hα β hβ e f he hf hn
    obtain ⟨hα', he'⟩ := List.getElem?_eq_some.mp he
    obtain ⟨hβ', hf'⟩ := List.getElem?_eq_some.mp hf
    have hαm : α < (ts.map Team.name).length := by simpa using hα'
    have hβm : β < (ts.map Team.name).length := by simpa using hβ'
    have hmapeq : (ts.map Team.name).get ⟨α, hαm⟩ = (ts.map Team.name).get ⟨β, hβm⟩ := by
      rw [List.get_eq_getElem, List.get_eq_getElem, List.getElem_map, List.getElem_map,
        he', hf', hn]
    exact (List.Nodup.getElem_inj_iff htsnd).mp hmapeq
  · intro α hα e he hn
    refine hxnotin ?_
    rw [← hn]
    exact List.mem_map_of_mem Team.name (List.getElem?_mem he)

lemma mem_names_iff (x : Team) (ts : List Team) (u : String) :
    u ∈ (x :: ts).map Team.name ↔
      u = x.name ∨ ∃ α < ts.length, ∃ e : Team, ts[α]? = some e ∧ e.name = u := by
  rw [List.map_cons, List.mem_cons]
  constructor
  · rintro (h | h)
    · exact Or.inl h
    · right
      rw [List.mem_map] at h
      obtain ⟨e, he, hn⟩ := h
      rw [List.mem_iff_getElem?] at he
      obtain ⟨α, hα⟩ := he
      have hlt : α < ts.length := by
        by_contra hc
        rw [List.getElem?_eq_none (by omega)] at hα
        cases hα
      exact ⟨α, hlt, e, hα, hn⟩
  · rintro (h | ⟨α, hα, e, he, hn⟩)
    · exact Or.inl h
    · right
      rw [List.mem_map]
      exact ⟨e, List.getElem?_mem he, hn⟩

lemma workList_odd (x : Team) (ts : List Team) (hpar : (x :: ts).length % 2 = 1) :
    workList (x :: ts) = x :: (ts ++ [byeTeam]) := by
  unfold workList
  rw [if_pos hpar]
  rfl

lemma workList_even (x : Team) (ts : List Team) (hpar : ¬((x :: ts).length % 2 = 1)) :
    workList (x :: ts) = x :: ts := by
  unfold workList
  rw [if_neg hpar]

lemma es_odd_getElem (ts : List Team) (α : Nat) (hα : α < ts.length) :
    (ts ++ [byeTeam])[α]? = ts[α]? := by
  rw [List.getElem?_append, if_pos hα]

lemma es_odd_bye (ts : List Team) (α : Nat) (hα1 : ts.length ≤ α)
    (hα2 : α < (ts ++ [byeTeam]).length) :
    (ts ++ [byeTeam])[α]? = some byeTeam := by
  rw [List.getElem?_append, if_neg (by omega)]
  have hz : α - ts.length = 0 := by
    rw [List.length_append, List.length_singleton] at hα2
    omega
  rw [hz]
  rfl

lemma x_pair_sum (x : Team) (es : List Team) (nreal : Nat)
    (hm : es.length % 2 = 1) (hnr : nreal ≤ es.length)
    (hxreal : x.bye = false)
    (hbye : ∀ α, nreal ≤ α → α < es.length → es[α]? = some byeTeam)
    (hreales : ∀ α < nreal, ∀ e : Team, es[α]? = some e → e.bye = false)
    (hinj : ∀ α < nreal, ∀ β < nreal, ∀ e f : Team, es[α]? = some e → es[β]? = some f →
      e.name = f.name → α = β)
    (hxname : ∀ α < nreal, ∀ e : Team, es[α]? = some e → e.name ≠ x.name)
    (β : Nat) (hβ : β < nreal) (eb : Team) (heb : es[β]? = some eb) :
    ((List.range es.length).map fun r =>
      (List.range ((es.length + 1) / 2)).countP
        (slotQ x es (pairMatch x.name eb.name) r)).sum = 1 := by
  obtain ⟨hr0lt, hemit, huniq⟩ := solve_x_pair es.length β hm (by omega)
  refine sum_map_range_unique es.length _ (es.length - 1 - β) hr0lt ?_ ?_
  · intro r hr hne
    rw [List.countP_eq_zero]
    intro i hi hq
    rw [List.mem_range] at hi
    have hchar := (slotQ_pair_char_x x es nreal hm hxreal hbye hreales hinj hxname
      β hβ eb heb r i hi).mp hq
    exact hne (huniq r hr hchar.2)
  · refine countP_range_unique _ _ 0 (by omega) ?_ ?_
    · exact (slotQ_pair_char_x x es nreal hm hxreal hbye hreales hinj hxname
        β hβ eb heb (es.length - 1 - β) 0 (by omega)).mpr ⟨rfl, hemit⟩
    · intro i hilt hq
      exact ((slotQ_pair_char_x x es nreal hm hxreal hbye hreales hinj hxname
        β hβ eb heb (es.length - 1 - β) i hilt).mp hq).1

lemma es_pair_sum (x : Team) (es : List Team) (nreal : Nat)
    (hm : es.length % 2 = 1) (hnr : nreal ≤ es.length)
    (hxreal : x.bye = false)
    (hbye : ∀ α, nreal ≤ α → α < es.length → es[α]? = some byeTeam)
    (hreales : ∀ α < nreal, ∀ e : Team, es[α]? = some e → e.bye = false)
    (hinj : ∀ α < nreal, ∀ β < nreal, ∀ e f : Team, es[α]? = some e → es[β]? = some f →
      e.name = f.name → α = β)
    (hxname : ∀ α < nreal, ∀ e : Team, es[α]? = some e → e.name ≠ x.name)
    (α β : Nat) (hα : α < nreal) (hβ : β < nreal) (hne : α ≠ β)
    (ea eb : Team) (hea : es[α]? = some ea) (heb : es[β]? = some eb) :
    ((List.range es.length).map fun r =>
      (List.range ((es.length + 1) / 2)).countP
        (slotQ x es (pairMatch ea.name eb.name) r)).sum = 1 := by
  obtain ⟨r₀, i₀, hr₀, hi₀1, hi₀h, hemit, huniq⟩ :=
    solve_es_pair es.length α β hm (by omega) (by omega) hne
  refine sum_map_range_unique es.length _ r₀ hr₀ ?_ ?_
  · intro r hr hrne
    rw [List.countP_eq_zero]
    intro i hi hq
    rw [List.mem_range] at hi
    obtain ⟨h1, hd⟩ := (slotQ_pair_char_es x es nreal hm hxreal hbye hreales hinj hxname
      α β hα hβ ea eb hea heb r i hi).mp hq
    exact hrne (huniq r hr i h1 hi hd).1
  · refine countP_range_unique _ _ i₀ hi₀h ?_ ?_
    · exact (slotQ_pair_char_es x es nreal hm hxreal hbye hreales hinj hxname
        α β hα hβ ea eb hea heb r₀ i₀ hi₀h).mpr ⟨hi₀1, hemit⟩
    · intro i hilt hq
      obtain ⟨h1, hd⟩ := (slotQ_pair_char_es x es nreal hm hxreal hbye hreales hinj hxname
        α β hα hβ ea eb hea heb r₀ i hilt).mp hq
      exact (huniq r₀ hr₀ i h1 hilt hd).2

lemma pairs_once_slots (x : Team) (es : List Team) (nreal : Nat)
    (hm : es.length % 2 = 1) (hnr : nreal ≤ es.length)
    (hxreal : x.bye = false)
    (hbye : ∀ α, nreal ≤ α → α < es.length → es[α]? = some byeTeam)
    (hreales : ∀ α < nreal, ∀ e : Team, es[α]? = some e → e.bye = false)
    (hinj : ∀ α < nreal, ∀ β < nreal, ∀ e f : Team, es[α]? = some e → es[β]? = some f →
      e.name = f.name → α = β)
    (hxname : ∀ α < nreal, ∀ e : Team, es[α]? = some e → e.name ≠ x.name)
    (u v : String)
    (hu : u = x.name ∨ ∃ α < nreal, ∃ e : Team, es[α]? = some e ∧ e.name = u)
    (hv : v = x.name ∨ ∃ β < nreal, ∃ e : Team, es[β]? = some e ∧ e.name = v)
    (huv : u ≠ v) :
    ((List.range es.length).map fun r =>
      (List.range ((es.length + 1) / 2)).countP (slotQ x es (pairMatch u v) r)).sum = 1 := by
  rcases hu with hu | ⟨α, hα, ea, hea, hna⟩
  · rcases hv with hv | ⟨β, hβ, eb, heb, hnb⟩
    · exact absurd (hu.trans hv.symm) huv
    · subst hu
      subst hnb
      exact x_pair_sum x es nreal hm hnr hxreal hbye hreales hinj hxname β hβ eb heb
  · rcases hv with hv | ⟨β, hβ, eb, heb, hnb⟩
    · subst hv
      subst hna
      rw [pairMatch_comm]
      exact x_pair_sum x es nreal hm hnr hxreal hbye hreales hinj hxname α hα ea hea
    · subst hna
      subst hnb
      have hαβ : α ≠ β := by
        intro hc
        subst hc
        rw [hea] at heb
        exact huv (congrArg Team.name (Option.some.inj heb))
      exact es_pair_sum x es nreal hm hnr hxreal hbye hreales hinj hxname
        α β hα hβ hαβ ea eb hea heb

lemma round_emit_full (x : Team) (es : List Team)
    (hm : es.length % 2 = 1) (hxreal : x.bye = false)
    (hreales : ∀ α < es.length, ∀ e : Team, es[α]? = some e → e.bye = false)
    (r : Nat) :
    (List.range ((es.length + 1) / 2)).countP (slotQ x es (fun pr => true) r) =
      (es.length + 1) / 2 := by
  have hm1 : 1 ≤ es.length := by omega
  have hbye : ∀ α, es.length ≤ α → α < es.length → es[α]? = some byeTeam := by
    intro α h1 h2
    omega
  calc (List.range ((es.length + 1) / 2)).countP (slotQ x es (fun pr => true) r)
      = (List.range ((es.length + 1) / 2)).length := by
        refine List.countP_eq_length.mpr fun i hi => ?_
        rw [List.mem_range] at hi
        refine (slotQ_emit_char x es es.length hm hxreal hbye hreales r i hi).mpr ?_
        by_cases hi0 : i = 0
        · exact Or.inl ⟨hi0, Nat.mod_lt _ (by omega)⟩
        · exact Or.inr ⟨by omega, Nat.mod_lt _ (by omega), Nat.mod_lt _ (by omega)⟩
    _ = (es.length + 1) / 2 := List.length_range _

lemma round_emit_bye (x : Team) (es : List Team) (nreal : Nat)
    (hm : es.length % 2 = 1) (hm3 : 3 ≤ es.length) (hnreq : nreal + 1 = es.length)
    (hxreal : x.bye = false)
    (hbye : ∀ α, nreal ≤ α → α < es.length → es[α]? = some byeTeam)
    (hreales : ∀ α < nreal, ∀ e : Team, es[α]? = some e → e.bye = false)
    (r : Nat) (hr : r < es.length) :
    (List.range ((es.length + 1) / 2)).countP (slotQ x es (fun pr => true) r) =
      (es.length + 1) / 2 - 1 := by
  obtain ⟨i₀, hi₀, hhit, hclean⟩ := bye_slot_arith es.length r hm hm3 hr
  refine countP_range_all_but_one _ _ i₀ hi₀ ?_ ?_
  · cases hq : slotQ x es (fun pr => true) r i₀ with
    | false => rfl
    | true =>
      exfalso
      have hch := (slotQ_emit_char x es nreal hm hxreal hbye hreales r i₀ hi₀).mp hq
      rcases hhit with ⟨hz, hidx⟩ | ⟨h1, hd⟩
      · rcases hch with ⟨hz2, hlt⟩ | ⟨h1', hL, hR⟩
        · omega
        · omega
      · rcases hch with ⟨hz, hlt⟩ | ⟨h1', hL, hR⟩
        · omega
        · rcases hd with hd | hd
          · omega
          · omega
  · intro i hilt hne
    obtain ⟨hc0, hc1⟩ := hclean i hilt hne
    refine (slotQ_emit_char x es nreal hm hxreal hbye hreales r i hilt).mpr ?_
    by_cases hi0 : i = 0
    · subst hi0
      have hlt : (es.length - 1 + r * (es.length - 1)) % es.length < es.length :=
        Nat.mod_lt _ (by omega)
      have hne0 := hc0 rfl
      exact Or.inl ⟨rfl, by omega⟩
    · obtain ⟨hL, hR⟩ := hc1 (by omega)
      have hltL : (i - 1 + r * (es.length - 1)) % es.length < es.length :=
        Nat.mod_lt _ (by omega)
      have hltR : (es.length - 1 - i + r * (es.length - 1)) % es.length < es.length :=
        Nat.mod_lt _ (by omega)
      exact Or.inr ⟨by omega, by omega, by omega⟩

lemma bye_round_count_x (x : Team) (es : List Team) (nreal : Nat)
    (hm : es.length % 2 = 1) (hnreq : nreal + 1 = es.length)
    (hxreal : x.bye = false)
    (hbye : ∀ α, nreal ≤ α → α < es.length → es[α]? = some byeTeam)
    (hreales : ∀ α < nreal, ∀ e : Team, es[α]? = some e → e.bye = false)
    (hxname : ∀ α < nreal, ∀ e : Team, es[α]? = some e → e.name ≠ x.name) :
    (List.range es.length).countP
      (fun r => !((pairsOf (rrRotate^[r] (x :: es))).any (containsName x.name))) = 1 := by
  refine countP_range_unique _ _ 0 (by omega) ?_ ?_
  · rw [notAny_iff, round_countP x es hm _ 0, List.countP_eq_zero]
    intro i hi hq
    rw [List.mem_range] at hi
    obtain ⟨hz, hlt⟩ :=
      (slotQ_contains_x_char x es nreal hm hxreal hbye hreales hxname 0 i hi).mp hq
    subst hz
    rw [Nat.zero_mul, Nat.add_zero, Nat.mod_eq_of_lt (by omega)] at hlt
    omega
  · intro r hr hq
    rw [notAny_iff, round_countP x es hm _ r, List.countP_eq_zero] at hq
    by_contra hrne
    refine hq 0 (List.mem_range.mpr (by omega)) ?_
    refine (slotQ_contains_x_char x es nreal hm hxreal hbye hreales hxname r 0
      (by omega)).mpr ⟨rfl, ?_⟩
    have hneq : (es.length - 1 + r * (es.length - 1)) % es.length ≠ es.length - 1 := by
      intro hc
      exact hrne ((solve_x_bye es.length r hm hr).mp hc)
    have hlt : (es.length - 1 + r * (es.length - 1)) % es.length < es.length :=
      Nat.mod_lt _ (by omega)
    omega

lemma bye_round_count_es (x : Team) (es : List Team) (nreal : Nat)
    (hm : es.length % 2 = 1) (hm3 : 3 ≤ es.length) (hnreq : nreal + 1 = es.length)
    (hxreal : x.bye = false)
    (hbye : ∀ α, nreal ≤ α → α < es.length → es[α]? = some byeTeam)
    (hreales : ∀ α < nreal, ∀ e : Team, es[α]? = some e → e.bye = false)
    (hinj : ∀ α < nreal, ∀ β < nreal, ∀ e f : Team, es[α]? = some e → es[β]? = some f →
      e.name = f.name → α = β)
    (hxname : ∀ α < nreal, ∀ e : Team, es[α]? = some e → e.name ≠ x.name)
    (α : Nat) (hα : α < nreal) (ea : Team) (hea : es[α]? = some ea) :
    (List.range es.length).countP
      (fun r => !((pairsOf (rrRotate^[r] (x :: es))).any (containsName ea.name))) = 1 := by
  obtain ⟨rb, hrb, habs, hpres⟩ := solve_bye_round es.length α hm hm3 (by omega)
  refine countP_range_unique _ _ rb hrb ?_ ?_
  · rw [notAny_iff, round_countP x es hm _ rb, List.countP_eq_zero]
    intro i hi hq
    rw [List.mem_range] at hi
    have hd := (slotQ_contains_char x es nreal hm hxreal hbye hreales hinj hxname
      α hα ea hea rb i hi).mp hq
    obtain ⟨h1, h2, h3⟩ := habs i hi
    rcases hd with ⟨hz, hidx⟩ | ⟨h1i, hidx, hpart⟩ | ⟨h1i, hidx, hpart⟩
    · exact h1 ⟨hz, hidx⟩
    · exact h2 ⟨h1i, hidx, by omega⟩
    · exact h3 ⟨h1i, hidx, by omega⟩
  · intro r hr hq
    by_contra hrne
    obtain ⟨i, hi, hd⟩ := hpres r hr hrne
    rw [notAny_iff, round_countP x es hm _ r, List.countP_eq_zero] at hq
    refine hq i (List.mem_range.mpr hi) ?_
    refine (slotQ_contains_char x es nreal hm hxreal hbye hreales hinj hxname
      α hα ea hea r i hi).mpr ?_
    rcases hd with ⟨hz, hidx⟩ | ⟨h1i, hidx, hpart⟩ | ⟨h1i, hidx, hpart⟩
    · exact Or.inl ⟨hz, hidx⟩
    · exact Or.inr (Or.inl ⟨h1i, hidx, by omega⟩)
    · exact Or.inr (Or.inr ⟨h1i, hidx, by omega⟩)

lemma pairs_names_closed (teams : List Team) (x : Team) (es : List Team) (nreal : Nat)
    (hwl : workList teams = x :: es)
    (hm : es.length % 2 = 1)
    (hbye : ∀ α, nreal ≤ α → α < es.length → es[α]? = some byeTeam)
    (hreales : ∀ α < nreal, ∀ e : Team, es[α]? = some e → e.bye = false)
    (hnames : ∀ α < nreal, ∀ e : Team, es[α]? = some e → e.name ∈ teams.map Team.name)
    (hxmem : x.name ∈ teams.map Team.name) :
    ∀ rd ∈ roundRobin teams, ∀ pr ∈ rd.matchPairs,
      pr.1 ∈ teams.map Team.name ∧ pr.2 ∈ teams.map Team.name := by
  intro rd hrd pr hpr
  rw [roundRobin_eq_map, hwl, List.mem_map] at hrd
  obtain ⟨r, hrmem, hrdEq⟩ := hrd
  rw [List.mem_range] at hrmem
  subst hrdEq
  have hpr' : pr ∈ pairsOf (rrRotate^[r] (x :: es)) := hpr
  rw [mem_pairsOf_iff x es hm r pr] at hpr'
  obtain ⟨i, hi, a, b, ha, hb, hna, hnb, hpreq⟩ := hpr'
  subst hpreq
  constructor
  · by_cases hi0 : i = 0
    · rw [if_pos hi0] at ha
      have hax : a = x := (Option.some.inj ha).symm
      rw [hax]
      exact hxmem
    · rw [if_neg hi0] at ha
      have hidx : (i - 1 + r * (es.length - 1)) % es.length < es.length :=
        Nat.mod_lt _ (by omega)
      have hlt := (es_real_iff es nreal hbye hreales _ hidx a ha).mp hna
      exact hnames _ hlt a ha
  · have hidx : (es.length - 1 - i + r * (es.length - 1)) % es.length < es.length :=
      Nat.mod_lt _ (by omega)
    have hlt := (es_real_iff es nreal hbye hreales _ hidx b hb).mp hnb
    exact hnames _ hlt b hb

lemma round_matching_count (x : Team) (es : List Team) (nreal : Nat)
    (hm : es.length % 2 = 1) (hnr : nreal ≤ es.length)
    (hxreal : x.bye = false)
    (hbye : ∀ α, nreal ≤ α → α < es.length → es[α]? = some byeTeam)
    (hreales : ∀ α < nreal, ∀ e : Team, es[α]? = some e → e.bye = false)
    (hinj : ∀ α < nreal, ∀ β < nreal, ∀ e f : Team, es[α]? = some e → es[β]? = some f →
      e.name = f.name → α = β)
    (hxname : ∀ α < nreal, ∀ e : Team, es[α]? = some e → e.name ≠ x.name)
    (r : Nat) (u : String)
    (hu : u = x.name ∨ ∃ α < nreal, ∃ e : Team, es[α]? = some e ∧ e.name = u) :
    (pairsOf (rrRotate^[r] (x :: es))).countP (containsName u) ≤ 1 := by
  rw [round_countP x es hm _ r]
  rcases hu with hu | ⟨α, hα, ea, hea, hn⟩
  · subst hu
    refine countP_range_le_one _ _ fun i hi j hj hqi hqj => ?_
    have h1 := (slotQ_contains_x_char x es nreal hm hxreal hbye hreales hxname r i hi).mp hqi
    have h2 := (slotQ_contains_x_char x es nreal hm hxreal hbye hreales hxname r j hj).mp hqj
    omega
  · subst hn
    refine countP_range_le_one _ _ fun i hi j hj hqi hqj => ?_
    have h1 := (slotQ_contains_char x es nreal hm hxreal hbye hreales hinj hxname
      α hα ea hea r i hi).mp hqi
    have h2 := (slotQ_contains_char x es nreal hm hxreal hbye hreales hinj hxname
      α hα ea hea r j hj).mp hqj
    refine contains_uniq_arith es.length α r hm (by omega) i j hi hj ?_ ?_
    · rcases h1 with ⟨a, b⟩ | ⟨a, b, c⟩ | ⟨a, b, c⟩
      exacts [Or.inl ⟨a, b⟩, Or.inr (Or.inl ⟨a, b⟩), Or.inr (Or.inr ⟨a, b⟩)]
    · rcases h2 with ⟨a, b⟩ | ⟨a, b, c⟩ | ⟨a, b, c⟩
      exacts [Or.inl ⟨a, b⟩, Or.inr (Or.inl ⟨a, b⟩), Or.inr (Or.inr ⟨a, b⟩)]

lemma round_no_self (x : Team) (es : List Team) (nreal : Nat)
    (hm : es.length % 2 = 1)
    (hbye : ∀ α, nreal ≤ α → α < es.length → es[α]? = some byeTeam)
    (hreales : ∀ α < nreal, ∀ e : Team, es[α]? = some e → e.bye = false)
    (hinj : ∀ α < nreal, ∀ β < nreal, ∀ e f : Team, es[α]? = some e → es[β]? = some f →
      e.name = f.name → α = β)
    (hxname : ∀ α < nreal, ∀ e : Team, es[α]? = some e → e.name ≠ x.name)
    (r : Nat) :
    ∀ pr ∈ pairsOf (rrRotate^[r] (x :: es)), pr.1 ≠ pr.2 := by
  intro pr hpr
  rw [mem_pairsOf_iff x es hm r pr] at hpr
  obtain ⟨i, hi, a, b, ha, hb, hna, hnb, hpreq⟩ := hpr
  subst hpreq
  have hm1 : 1 ≤ es.length := by omega
  have hidxRlt : (es.length - 1 - i + r * (es.length - 1)) % es.length < es.length :=
    Nat.mod_lt _ (by omega)
  have hβ := (es_real_iff es nreal hbye hreales _ hidxRlt b hb).mp hnb
  by_cases hi0 : i = 0
  · rw [if_pos hi0] at ha
    have hax : a = x := (Option.some.inj ha).symm
    subst hax
    intro hc
    exact hxname _ hβ b hb hc.symm
  · rw [if_neg hi0] at ha
    have hidxLlt : (i - 1 + r * (es.length - 1)) % es.length < es.length :=
      Nat.mod_lt _ (by omega)
    have hαlt := (es_real_iff es nreal hbye hreales _ hidxLlt a ha).mp hna
    intro hc
    have heq := hinj _ hαlt _ hβ a b ha hb hc
    haveI : NeZero es.length := ⟨by omega⟩
    have h1 : ((i - 1 : Nat) : ZMod es.length) - r =
        (((es.length - 1 - i + r * (es.length - 1)) % es.length : Nat) : ZMod es.length) :=
      (idx_eq_iff es.length (i - 1) r _ hidxRlt hm1).mp heq
    have h2 : ((es.length - 1 - i : Nat) : ZMod es.length) - r =
        (((es.length - 1 - i + r * (es.length - 1)) % es.length : Nat) : ZMod es.length) :=
      (idx_eq_iff es.length (es.length - 1 - i) r _ hidxRlt hm1).mp rfl
    have h3 : 2 * (i : ZMod es.length) = 2 * 0 := by
      rw [cast_pred_nat es.length i (by omega)] at h1
      rw [cast_rev_nat es.length i (by omega) hm1] at h2
      linear_combination h1 - h2
    have h4 := two_cancel es.length hm _ _ h3
    have h5 : ((i : Nat) : ZMod es.length) = ((0 : Nat) : ZMod es.length) := by
      push_cast
      exact h4
    have := cast_eq_below es.length i 0 (by omega) (by omega) h5
    omega

/-- Claim C1: for every group of at least two competitors with distinct names
(and no bye flags, as for the player lists the app builds), roundRobin
produces exactly evenUp N - 1 rounds (the minimum number, M - 1 where M is N
rounded up to even), the total number of emitted pairings is N * (N - 1) / 2,
and every unordered pair of distinct competitor names occurs in exactly one
pairing across the whole schedule. -/
theorem roundRobin_complete (teams : List Team)
    (hN : 2 ≤ teams.length)
    (hnd : (teams.map Team.name).Nodup)
    (hreal : ∀ t ∈ teams, t.bye = false) :
    (roundRobin teams).length = evenUp teams.length - 1 ∧
    ((roundRobin teams).map fun rd => rd.matchPairs.length).sum =
      teams.length * (teams.length - 1) / 2 ∧
    ∀ u ∈ teams.map Team.name, ∀ v ∈ teams.map Team.name, u ≠ v →
      ((roundRobin teams).map fun rd => rd.matchPairs.countP (pairMatch u v)).sum = 1 := by
  have hlen : (roundRobin teams).length = evenUp teams.length - 1 := by
    rw [roundRobin_eq_map, List.length_map, List.length_range]
    congr 1
    unfold workList evenUp
    by_cases h : teams.length % 2 = 1
    · rw [if_pos h, if_pos h, List.length_append, List.length_singleton]
    · rw [if_neg h, if_neg h]
  obtain ⟨x, ts, rfl⟩ : ∃ x ts, teams = x :: ts := by
    cases teams with
    | nil => exact absurd hN (by simp)
    | cons a l => exact ⟨a, l, rfl⟩
  obtain ⟨hxreal, hts_real, hts_inj, hts_xname⟩ := ts_facts x ts hnd hreal
  by_cases hpar : (x :: ts).length % 2 = 1
  · have hwl := workList_odd x ts hpar
    have hm : (ts ++ [byeTeam]).length % 2 = 1 := by
      simp only [List.length_append, List.length_singleton]
      simpa using hpar
    have hm3 : 3 ≤ (ts ++ [byeTeam]).length := by
      simp only [List.length_append, List.length_singleton]
      simp only [List.length_cons] at hN hpar
      omega
    have hnreq : ts.length + 1 = (ts ++ [byeTeam]).length := by simp
    have hbye : ∀ α, ts.length ≤ α → α < (ts ++ [byeTeam]).length →
        (ts ++ [byeTeam])[α]? = some byeTeam := fun α h1 h2 => es_odd_bye ts α h1 h2
    have hreales : ∀ α < ts.length, ∀ e : Team,
        (ts ++ [byeTeam])[α]? = some e → e.bye = false := by
      intro α hα e he
      rw [es_odd_getElem ts α hα] at he
      exact hts_real α hα e he
    have hinj : ∀ α < ts.length, ∀ β < ts.length, ∀ e f : Team,
        (ts ++ [byeTeam])[α]? = some e → (ts ++ [byeTeam])[β]? = some f →
        e.name = f.name → α = β := by
      intro α hα β hβ e f he hf hn
      rw [es_odd_getElem ts α hα] at he
      rw [es_odd_getElem ts β hβ] at hf
      exact hts_inj α hα β hβ e f he hf hn
    have hxname : ∀ α < ts.length, ∀ e : Team,
        (ts ++ [byeTeam])[α]? = some e → e.name ≠ x.name := by
      intro α hα e he
      rw [es_odd_getElem ts α hα] at he
      exact hts_xname α hα e he
    refine ⟨hlen, ?_, ?_⟩
    · rw [roundRobin_len_sum (x :: ts) x (ts ++ [byeTeam]) hwl hm]
      rw [sum_map_range_const (ts ++ [byeTeam]).length
        (((ts ++ [byeTeam]).length + 1) / 2 - 1) _
        (fun r hr => round_emit_bye x (ts ++ [byeTeam]) ts.length hm hm3 hnreq
          hxreal hbye hreales r hr)]
      have hNlen : (x :: ts).length = (ts ++ [byeTeam]).length := by simp
      rw [hNlen]
      exact odd_total_arith (ts ++ [byeTeam]).length hm
    · intro u hu v hv huv
      rw [roundRobin_countP_sum (x :: ts) x (ts ++ [byeTeam]) hwl hm]
      have hu' : u = x.name ∨ ∃ α < ts.length, ∃ e : Team,
          (ts ++ [byeTeam])[α]? = some e ∧ e.name = u := by
        rcases (mem_names_iff x ts u).mp hu with h | ⟨α, hα, e, he, hn⟩
        · exact Or.inl h
        · exact Or.inr ⟨α, hα, e, by rw [es_odd_getElem ts α hα]; exact he, hn⟩
      have hv' : v = x.name ∨ ∃ β < ts.length, ∃ e : Team,
          (ts ++ [byeTeam])[β]? = some e ∧ e.name = v := by
        rcases (mem_names_iff x ts v).mp hv with h | ⟨β, hβ, e, he, hn⟩
        · exact Or.inl h
        · exact Or.inr ⟨β, hβ, e, by rw [es_odd_getElem ts β hβ]; exact he, hn⟩
      exact pairs_once_slots x (ts ++ [byeTeam]) ts.length hm (by simp) hxreal hbye
        hreales hinj hxname u v hu' hv' huv
  · have hwl := workList_even x ts hpar
    have hm : ts.length % 2 = 1 := by
      simp only [List.length_cons] at hpar
      omega
    have hbye : ∀ α, ts.length ≤ α → α < ts.length → ts[α]? = some byeTeam := by
      intro α h1 h2
      omega
    refine ⟨hlen, ?_, ?_⟩
    · rw [roundRobin_len_sum (x :: ts) x ts hwl hm]
      rw [sum_map_range_const ts.length ((ts.length + 1) / 2) _
        (fun r hr => round_emit_full x ts hm hxreal hts_real r)]
      simp only [List.length_cons, Nat.add_sub_cancel]
      exact even_total_arith ts.length hm
    · intro u hu v hv huv
      rw [roundRobin_countP_sum (x :: ts) x ts hwl hm]
      exact pairs_once_slots x ts ts.length hm (le_refl _) hxreal hbye hts_real
        hts_inj hts_xname u v ((mem_names_iff x ts u).mp hu)
        ((mem_names_iff x ts v).mp hv) huv

/-- Concrete check of C1 on a three-competitor roster: the pair of names
x and y meets in exactly one pairing across the generated schedule. -/
theorem roundRobin_complete_witness :
    ((roundRobin demoTeams).map fun rd =>
      rd.matchPairs.countP (pairMatch "x" "y")).sum = 1 :=
  (roundRobin_complete demoTeams (by decide) (by decide) (by decide)).2.2
    "x" (by decide) "y" (by decide) (by decide)

/-- Claim C8: for every odd-sized roster (N odd, N at least 3) with distinct
names and no bye flags, each competitor appears in no pairing of exactly one
of the generated rounds (their bye round), and every emitted pairing
references roster names only, so no pairing involving the bye placeholder is
ever emitted. -/
theorem roundRobin_bye (teams : List Team)
    (hodd : teams.length % 2 = 1) (hN : 3 ≤ teams.length)
    (hnd : (teams.map Team.name).Nodup)
    (hreal : ∀ t ∈ teams, t.bye = false) :
    (∀ u ∈ teams.map Team.name,
      ((roundRobin teams).countP fun rd =>
        !(rd.matchPairs.any (containsName u))) = 1) ∧
    ∀ rd ∈ roundRobin teams, ∀ pr ∈ rd.matchPairs,
      pr.1 ∈ teams.map Team.name ∧ pr.2 ∈ teams.map Team.name := by
  obtain ⟨x, ts, rfl⟩ : ∃ x ts, teams = x :: ts := by
    cases teams with
    | nil => exact absurd hN (by simp)
    | cons a l => exact ⟨a, l, rfl⟩
  obtain ⟨hxreal, hts_real, hts_inj, hts_xname⟩ := ts_facts x ts hnd hreal
  have hwl := workList_odd x ts hodd
  have hm : (ts ++ [byeTeam]).length % 2 = 1 := by
    simp only [List.length_append, List.length_singleton]
    simpa using hodd
  have hm3 : 3 ≤ (ts ++ [byeTeam]).length := by
    simp only [List.length_append, List.length_singleton]
    simp only [List.length_cons] at hN
    omega
  have hnreq : ts.length + 1 = (ts ++ [byeTeam]).length := by simp
  have hbye : ∀ α, ts.length ≤ α → α < (ts ++ [byeTeam]).length →
      (ts ++ [byeTeam])[α]? = some byeTeam := fun α h1 h2 => es_odd_bye ts α h1 h2
  have hreales : ∀ α < ts.length, ∀ e : Team,
      (ts ++ [byeTeam])[α]? = some e → e.bye = false := by
    intro α hα e he
    rw [es_odd_getElem ts α hα] at he
    exact hts_real α hα e he
  have hinj : ∀ α < ts.length, ∀ β < ts.length, ∀ e f : Team,
      (ts ++ [byeTeam])[α]? = some e → (ts ++ [byeTeam])[β]? = some f →
      e.name = f.name → α = β := by
    intro α hα β hβ e f he hf hn
    rw [es_odd_getElem ts α hα] at he
    rw [es_odd_getElem ts β hβ] at hf
    exact hts_inj α hα β hβ e f he hf hn
  have hxname : ∀ α < ts.length, ∀ e : Team,
      (ts ++ [byeTeam])[α]? = some e → e.name ≠ x.name := by
    intro α hα e he
    rw [es_odd_getElem ts α hα] at he
    exact hts_xname α hα e he
  constructor
  · intro u hu
    rw [roundRobin_countP_rounds (x :: ts) x (ts ++ [byeTeam]) hwl]
    rcases (mem_names_iff x ts u).mp hu with h | ⟨α, hα, e, he, hn⟩
    · subst h
      exact bye_round_count_x x (ts ++ [byeTeam]) ts.length hm hnreq hxreal hbye
        hreales hxname
    · subst hn
      exact bye_round_count_es x (ts ++ [byeTeam]) ts.length hm hm3 hnreq hxreal hbye
        hreales hinj hxname α hα e (by rw [es_odd_getElem ts α hα]; exact he)
  · refine pairs_names_closed (x :: ts) x (ts ++ [byeTeam]) ts.length hwl hm hbye
      hreales ?_ ?_
    · intro α hα e he
      rw [es_odd_getElem ts α hα] at he
      rw [List.map_cons]
      exact List.mem_cons_of_mem _ (List.mem_map_of_mem Team.name (List.getElem?_mem he))
    · rw [List.map_cons]
      exact List.mem_cons_self _ _

/-- Concrete check of C8 on a three-competitor roster: competitor x sits out
exactly one of the generated rounds. -/
theorem roundRobin_bye_witness :
    ((roundRobin demoTeams).countP fun rd =>
      !(rd.matchPairs.any (containsName "x"))) = 1 :=
  (roundRobin_bye demoTeams (by decide) (by decide) (by decide) (by decide)).1
    "x" (by decide)

/-- Claim C10: for every roster with distinct names (and no bye flags, as for
the player lists the app builds), every round emitted by roundRobin is a
matching on the roster: each roster name appears in at most one pairing of the
round, and no pairing pairs a name with itself. -/
theorem roundRobin_matching (teams : List Team)
    (hnd : (teams.map Team.name).Nodup)
    (hreal : ∀ t ∈ teams, t.bye = false) :
    ∀ rd ∈ roundRobin teams,
      (∀ u ∈ teams.map Team.name, rd.matchPairs.countP (containsName u) ≤ 1) ∧
      ∀ pr ∈ rd.matchPairs, pr.1 ≠ pr.2 := by
  cases teams with
  | nil =>
    intro rd hrd
    have hempty : roundRobin ([] : List Team) = [] := rfl
    rw [hempty] at hrd
    cases hrd
  | cons x ts =>
    obtain ⟨hxreal, hts_real, hts_inj, hts_xname⟩ := ts_facts x ts hnd hreal
    by_cases hpar : (x :: ts).length % 2 = 1
    · have hwl := workList_odd x ts hpar
      have hm : (ts ++ [byeTeam]).length % 2 = 1 := by
        simp only [List.length_append, List.length_singleton]
        simpa using hpar
      have hbye : ∀ α, ts.length ≤ α → α < (ts ++ [byeTeam]).length →
          (ts ++ [byeTeam])[α]? = some byeTeam := fun α h1 h2 => es_odd_bye ts α h1 h2
      have hreales : ∀ α < ts.length, ∀ e : Team,
          (ts ++ [byeTeam])[α]? = some e → e.bye = false := by
        intro α hα e he
        rw [es_odd_getElem ts α hα] at he
        exact hts_real α hα e he
      have hinj : ∀ α < ts.length, ∀ β < ts.length, ∀ e f : Team,
          (ts ++ [byeTeam])[α]? = some e → (ts ++ [byeTeam])[β]? = some f →
          e.name = f.name → α = β := by
        intro α hα β hβ e f he hf hn
        rw [es_odd_getElem ts α hα] at he
        rw [es_odd_getElem ts β hβ] at hf
        exact hts_inj α hα β hβ e f he hf hn
      have hxname : ∀ α < ts.length, ∀ e : Team,
          (ts ++ [byeTeam])[α]? = some e → e.name ≠ x.name := by
        intro α hα e he
        rw [es_odd_getElem ts α hα] at he
        exact hts_xname α hα e he
      intro rd hrd
      rw [roundRobin_eq_map, hwl, List.mem_map] at hrd
      obtain ⟨r, hrmem, hrdEq⟩ := hrd
      subst hrdEq
      constructor
      · intro u hu
        have hu' : u = x.name ∨ ∃ α < ts.length, ∃ e : Team,
            (ts ++ [byeTeam])[α]? = some e ∧ e.name = u := by
          rcases (mem_names_iff x ts u).mp hu with h | ⟨α, hα, e, he, hn⟩
          · exact Or.inl h
          · exact Or.inr ⟨α, hα, e, by rw [es_odd_getElem ts α hα]; exact he, hn⟩
        exact round_matching_count x (ts ++ [byeTeam]) ts.length hm (by simp) hxreal
          hbye hreales hinj hxname r u hu'
      · exact round_no_self x (ts ++ [byeTeam]) ts.length hm hbye hreales hinj
          hxname r
    · have hwl := workList_even x ts hpar
      have hm : ts.length % 2 = 1 := by
        simp only [List.length_cons] at hpar
        omega
      have hbye : ∀ α, ts.length ≤ α → α < ts.length → ts[α]? = some byeTeam := by
        intro α h1 h2
        omega
      intro rd hrd
      rw [roundRobin_eq_map, hwl, List.mem_map] at hrd
      obtain ⟨r, hrmem, hrdEq⟩ := hrd
      subst hrdEq
      constructor
      · intro u hu
        exact round_matching_count x ts ts.length hm (le_refl _) hxreal hbye hts_real
          hts_inj hts_xname r u ((mem_names_iff x ts u).mp hu)
      · exact round_no_self x ts ts.length hm hbye hts_real hts_inj hts_xname r

/-- Concrete check of C10 on a four-competitor roster: the first generated
round is the expected one, and name p occurs in at most one of its pairings. -/
theorem roundRobin_matching_witness :
    (roundRobin demoTeams4)[0]? = some ⟨1, [("p", "t"), ("q", "s")]⟩ ∧
    (⟨1, [("p", "t"), ("q", "s")]⟩ : RRound).matchPairs.countP
      (containsName "p") ≤ 1 := by
  have h0 : (roundRobin demoTeams4)[0]? = some ⟨1, [("p", "t"), ("q", "s")]⟩ := rfl
  exact ⟨h0, ((roundRobin_matching demoTeams4 (by decide) (by decide))
    ⟨1, [("p", "t"), ("q", "s")]⟩ (List.getElem?_mem h0)).1 "p" (by decide)⟩

end RoundRobinProofs

end MaxOpen
